import Mathlib

/-!
Verification development for the interpreter front end of
`Adam-Gleave/crafting-interpreters` (Rust): a scanner producing a token
sequence, a recursive-descent expression parser, and a pretty-printing
renderer.  Definitions are shallow embeddings of the Rust source
(`src/scanner.rs`, `src/parser.rs`, `src/ast.rs`, `src/print.rs`,
`src/main.rs`).

Modelling conventions:
* A Rust `String` source text is a `List Char`; `Scanner::peek` indexes
  characters (`source.chars().nth(current)`) while `Scanner::is_at_end`
  compares the cursor against the *byte* length (`source.len()`), so the
  embedding keeps both views: `List.get?` for `peek` and `byteLen`
  (the sum of UTF-8 sizes) for `is_at_end`.
* A Rust panic (the `expect` in `Scanner::advance`, the `panic!` calls in
  `Parser::parse_primary`, `Option::unwrap`) is modelled as an explicit
  `panic` result constructor; `Result<_, Error>` is the `err` constructor.
* Rust `while` loops are modelled as fuel-indexed recursion; the fuel
  supplied by the top-level entry points is large enough that the
  `fuelOut` constructor is unreachable on every run the theorems below
  talk about (claims conditioned on `ok`/`err`/`panic` results are
  unaffected by it).
* The `f64` payload of a number token is modelled by the literal text the
  scanner accumulated (the Rust code parses that text with
  `s.parse::<f64>()`, which cannot fail on the digit strings `number_lit`
  builds); no claim depends on the floating-point value itself.
-/

namespace Lox

/-- Token type from `src/scanner.rs` (duplicated verbatim in `src/main.rs`).
The `number` payload is the literal text accumulated by `number_lit`
(standing for the `f64` it decodes to). -/
inductive Token where
  | ident (s : String)
  | string_ (s : String)
  | number (s : String)
  | true_
  | false_
  | comma
  | dot
  | plus
  | minus
  | star
  | slash
  | eq
  | eqEq
  | not_
  | ne
  | gt
  | ge
  | lt
  | le
  | and_
  | or_
  | if_
  | else_
  | for_
  | while_
  | nil
  | fun_
  | class_
  | return_
  | super_
  | this_
  | var_
  | print_
  | leftParen
  | rightParen
  | leftBrace
  | rightBrace
  | semicolon
  | eof
deriving DecidableEq, Repr

/- Rust's derived `PartialEq` on `Token` (used by `Parser::match_any` via
`t == &token`) is structural equality: the `==` coming from the derived
`DecidableEq` instance above. -/

/-- `Error::InterpretError` from `src/main.rs`, as produced by
`Error::message(&self.source, msg)`: it carries the whole source text as
its line string plus the message. -/
structure Error where
  lineString : List Char
  message : String
deriving DecidableEq, Repr

/-- Outcome of a scanner computation: `ok` (Rust `Ok`), `err` (Rust
`Err`), `panic` (a Rust panic, from the `expect` in `advance`), and
`fuelOut` (the fuel-model artifact, unreachable with the fuel supplied by
the entry points). -/
inductive ScanRes (α : Type) where
  | ok (a : α)
  | err (e : Error)
  | panic
  | fuelOut
deriving DecidableEq, Repr

/-- Scanner state (`Scanner` struct in `src/scanner.rs`, `Lexer` in
`src/main.rs`): source text, line counter, cursor. -/
structure Scanner where
  source : List Char
  line : Nat
  current : Nat
deriving DecidableEq, Repr

/-- Byte length of the source: Rust `String::len` counts UTF-8 bytes. -/
def byteLen (s : List Char) : Nat := (s.map Char.utf8Size).sum

/-- `Scanner::peek`: `self.source.chars().nth(self.current)`. -/
def Scanner.peek (st : Scanner) : Option Char := st.source.get? st.current

/-- `Scanner::peek_next`: `self.source.chars().nth(self.current + 1)`. -/
def Scanner.peekNext (st : Scanner) : Option Char := st.source.get? (st.current + 1)

/-- `Scanner::is_at_end`: `self.current >= self.source.len()` — the char
cursor compared against the byte length. -/
def Scanner.isAtEnd (st : Scanner) : Bool := byteLen st.source ≤ st.current

/-- `Scanner::advance`: `self.peek().expect(...)` then `self.current += 1`;
a `none` peek is the panic of the `expect`. -/
def Scanner.advance (st : Scanner) : ScanRes (Char × Scanner) :=
  match st.peek with
  | some c => .ok (c, { st with current := st.current + 1 })
  | none => .panic

/-- `Scanner::next_matches`. -/
def Scanner.nextMatches (c : Char) (st : Scanner) : Bool × Scanner :=
  if st.isAtEnd then (false, st)
  else if !(st.peek.any fun next => next == c) then (false, st)
  else (true, { st with current := st.current + 1 })

/-- The `while` loop of `Scanner::string_lit`: consume characters until a
closing quote or `is_at_end`, bumping the line counter on newlines. -/
def stringLitLoop : Nat → Scanner → String → ScanRes (String × Scanner)
  | 0, _, _ => .fuelOut
  | fuel + 1, st, acc =>
    if !(st.peek.any fun c => c == '"') && !st.isAtEnd then
      let st := if st.peek.any fun c => c == '\n' then { st with line := st.line + 1 } else st
      match st.advance with
      | .ok (c, st') => stringLitLoop fuel st' (acc.push c)
      | .err e => .err e
      | .panic => .panic
      | .fuelOut => .fuelOut
    else if st.isAtEnd then
      .err ⟨st.source, "Unterminated string"⟩
    else
      match st.advance with
      | .ok (_, st') => .ok (acc, st')
      | .err e => .err e
      | .panic => .panic
      | .fuelOut => .fuelOut

/-- `Scanner::string_lit`, with ample fuel for its loop. -/
def Scanner.stringLit (st : Scanner) : ScanRes (String × Scanner) :=
  stringLitLoop (byteLen st.source + 1) st ""

/-- A maximal run of decimal digits (the two `while` loops of
`Scanner::number_lit`). -/
def digitsLoop : Nat → Scanner → String → ScanRes (String × Scanner)
  | 0, _, _ => .fuelOut
  | fuel + 1, st, acc =>
    if st.peek.any fun c => c.isDigit then
      match st.advance with
      | .ok (c, st') => digitsLoop fuel st' (acc.push c)
      | .err e => .err e
      | .panic => .panic
      | .fuelOut => .fuelOut
    else
      .ok (acc, st)

/-- `Scanner::number_lit`: digits, then an optional `.` followed by more
digits.  The final `s.parse::<f64>()` is modelled by returning the
accumulated text itself (it cannot fail on these digit strings). -/
def Scanner.numberLit (c : Char) (st : Scanner) : ScanRes (String × Scanner) :=
  match digitsLoop (byteLen st.source + 1) st (String.singleton c) with
  | .ok (s, st) =>
    if (st.peek.any fun c => c == '.') && (st.peekNext.any fun c => c.isDigit) then
      match st.advance with
      | .ok (c, st') => digitsLoop (byteLen st'.source + 1) st' (s.push c)
      | .err e => .err e
      | .panic => .panic
      | .fuelOut => .fuelOut
    else
      .ok (s, st)
  | .err e => .err e
  | .panic => .panic
  | .fuelOut => .fuelOut

def isValidIdentifierStart (c : Char) : Bool := c.isAlpha || c == '_'

def isValidIdentifierChar (c : Char) : Bool := isValidIdentifierStart c || c.isDigit

/-- The `while` loop of `Scanner::identifier`. -/
def identifierLoop : Nat → Scanner → String → ScanRes (String × Scanner)
  | 0, _, _ => .fuelOut
  | fuel + 1, st, acc =>
    if st.peek.any fun c => isValidIdentifierChar c then
      match st.advance with
      | .ok (c, st') => identifierLoop fuel st' (acc.push c)
      | .err e => .err e
      | .panic => .panic
      | .fuelOut => .fuelOut
    else
      .ok (acc, st)

/-- `Scanner::identifier`. -/
def Scanner.identifier (c : Char) (st : Scanner) : ScanRes (String × Scanner) :=
  identifierLoop (byteLen st.source + 1) st (String.singleton c)

/-- The `while` loop of `Scanner::comment`: discard characters up to (not
including) the next newline or `is_at_end`. -/
def commentLoop : Nat → Scanner → ScanRes Scanner
  | 0, _ => .fuelOut
  | fuel + 1, st =>
    if !(st.peek.any fun c => c == '\n') && !st.isAtEnd then
      match st.advance with
      | .ok (_, st') => commentLoop fuel st'
      | .err e => .err e
      | .panic => .panic
      | .fuelOut => .fuelOut
    else
      .ok st

/-- `Scanner::comment`. -/
def Scanner.comment (st : Scanner) : ScanRes Scanner :=
  commentLoop (byteLen st.source + 1) st

/-- The keys inserted into the `KEYWORDS` map (`keyword` in
`src/scanner.rs` and `src/main.rs`), in insertion order. -/
def keywordWords : List String :=
  ["true", "false", "and", "or", "if", "else", "for", "while", "nil",
   "fun", "class", "return", "super", "this", "var", "print"]

/-- `keyword` from `src/scanner.rs` (identical in `src/main.rs`): lookup
in the process-wide `KEYWORDS` map, modelled extensionally as exact-match
lookup over the inserted key/value pairs. -/
def keyword (s : String) : Option Token :=
  if s = "true" then some .true_
  else if s = "false" then some .false_
  else if s = "and" then some .and_
  else if s = "or" then some .or_
  else if s = "if" then some .if_
  else if s = "else" then some .else_
  else if s = "for" then some .for_
  else if s = "while" then some .while_
  else if s = "nil" then some .nil
  else if s = "fun" then some .fun_
  else if s = "class" then some .class_
  else if s = "return" then some .return_
  else if s = "super" then some .super_
  else if s = "this" then some .this_
  else if s = "var" then some .var_
  else if s = "print" then some .print_
  else none

/-- A character wrapped in single quotes, for the "Unexpected character"
message (`format!("Unexpected character \x7bc\x7d")` puts the character
between two U+0027 quotes). -/
def charQuote (c : Char) : String :=
  String.mk [Char.ofNat 39, c, Char.ofNat 39]

/-- `Scanner::read_token` (`src/scanner.rs`; `Lexer::read_token` in
`src/main.rs` is character-for-character identical): advance one
character and dispatch on it, returning `some token`, `none` (whitespace
or comment), or an error. -/
def readToken (st : Scanner) : ScanRes (Option Token × Scanner) :=
  match st.advance with
  | .ok (c, st) =>
    if c = '"' then
      match st.stringLit with
      | .ok (s, st) => .ok (some (.string_ s), st)
      | .err e => .err e
      | .panic => .panic
      | .fuelOut => .fuelOut
    else if c = ',' then .ok (some .comma, st)
    else if c = '.' then .ok (some .dot, st)
    else if c = '+' then .ok (some .plus, st)
    else if c = '-' then .ok (some .minus, st)
    else if c = '*' then .ok (some .star, st)
    else if c = '=' then
      let (m, st) := st.nextMatches '='
      .ok (some (if m then .eqEq else .eq), st)
    else if c = '!' then
      let (m, st) := st.nextMatches '='
      .ok (some (if m then .ne else .not_), st)
    else if c = '>' then
      let (m, st) := st.nextMatches '='
      .ok (some (if m then .ge else .gt), st)
    else if c = '<' then
      let (m, st) := st.nextMatches '='
      .ok (some (if m then .le else .lt), st)
    else if c = '(' then .ok (some .leftParen, st)
    else if c = ')' then .ok (some .rightParen, st)
    else if c = '\x7b' then .ok (some .leftBrace, st)
    else if c = '\x7d' then .ok (some .rightBrace, st)
    else if c = ';' then .ok (some .semicolon, st)
    else if c = '/' then
      let (m, st) := st.nextMatches '/'
      if m then
        match st.comment with
        | .ok st => .ok (none, st)
        | .err e => .err e
        | .panic => .panic
        | .fuelOut => .fuelOut
      else .ok (some .slash, st)
    else if c = ' ' || c = '\r' || c = '\t' then .ok (none, st)
    else if c = '\n' then .ok (none, { st with line := st.line + 1 })
    else if c.isDigit then
      match st.numberLit c with
      | .ok (s, st) => .ok (some (.number s), st)
      | .err e => .err e
      | .panic => .panic
      | .fuelOut => .fuelOut
    else if isValidIdentifierStart c then
      match st.identifier c with
      | .ok (s, st) => .ok ((keyword s).or (some (.ident s)), st)
      | .err e => .err e
      | .panic => .panic
      | .fuelOut => .fuelOut
    else
      .err ⟨st.source, "Unexpected character " ++ charQuote c⟩
  | .err e => .err e
  | .panic => .panic
  | .fuelOut => .fuelOut

/-- The `while !self.is_at_end()` loop shared by `Scanner::read_tokens`
and `Lexer::read_tokens`: collect the tokens produced by `read_token`. -/
def readTokensLoop : Nat → Scanner → List Token → ScanRes (List Token)
  | 0, _, _ => .fuelOut
  | fuel + 1, st, acc =>
    if !st.isAtEnd then
      match readToken st with
      | .ok (some t, st') => readTokensLoop fuel st' (acc ++ [t])
      | .ok (none, st') => readTokensLoop fuel st' acc
      | .err e => .err e
      | .panic => .panic
      | .fuelOut => .fuelOut
    else
      .ok acc

/-- `Scanner::read_tokens` (`src/scanner.rs`): run the loop, then
`tokens.push(Token::Eof)`. -/
def Scanner.readTokens (source : List Char) : ScanRes (List Token) :=
  match readTokensLoop (byteLen source + 1) ⟨source, 1, 0⟩ [] with
  | .ok ts => .ok (ts ++ [.eof])
  | .err e => .err e
  | .panic => .panic
  | .fuelOut => .fuelOut

/-- `Lexer::read_tokens` (`src/main.rs`): the same loop, but the result is
returned as-is — no `Eof` token is appended. -/
def Lexer.readTokens (source : List Char) : ScanRes (List Token) :=
  readTokensLoop (byteLen source + 1) ⟨source, 1, 0⟩ []

/-! ## AST (`src/ast.rs`) -/

/-- `Expr` from `src/ast.rs`. -/
inductive Expr where
  | literal (t : Token)
  | unary (op : Token) (e : Expr)
  | binary (lhs : Expr) (op : Token) (rhs : Expr)
  | grouping (e : Expr)
deriving DecidableEq, Repr

/-! ## Parser (`src/parser.rs`)

The Rust parser's recursion (`parse_unary` into itself, `parse_primary`
back into `parse_expression`) and its `while` loops are modelled with a
fuel parameter; `Parser.parse` supplies `tokens.length + 2` fuel, which
is enough for every run (each recursive descent step and each loop
iteration first consumes at least one token). -/

/-- Parser state (`Parser` struct): token vector plus cursor. -/
structure PState where
  tokens : List Token
  current : Nat
deriving DecidableEq, Repr

/-- Outcome of a parser computation: `ok` (a tree plus the final state),
`panic` (a Rust `panic!` or `Option::unwrap` failure, with its message),
and the fuel-model artifact `fuelOut` (unreachable with the fuel supplied
by `Parser.parse`). -/
inductive PRes where
  | ok (e : Expr) (st : PState)
  | panic (msg : String)
  | fuelOut
deriving DecidableEq, Repr

/-- `Parser::peek`: `self.tokens.get(self.current)`. -/
def PState.peek (st : PState) : Option Token := st.tokens.get? st.current

/-- `Parser::previous`: `self.current.checked_sub(1).and_then(|i| self.tokens.get(i))`. -/
def PState.previous (st : PState) : Option Token :=
  match st.current with
  | 0 => none
  | n + 1 => st.tokens.get? n

/-- `matches!(token, Token::Eof)`. -/
def Token.isEof : Token → Bool
  | .eof => true
  | _ => false

/-- `Parser::is_at_end`: `self.tokens.get(self.current).map_or(true, |t| matches!(t, Token::Eof))`. -/
def PState.isAtEnd (st : PState) : Bool := (st.peek.map Token.isEof).getD true

/-- `Parser::advance`: `if !self.is_at_end() { self.current += 1 }`. -/
def PState.advance (st : PState) : PState :=
  if !st.isAtEnd then { st with current := st.current + 1 } else st

/-- `Parser::match_any`: try each candidate token in order; on the first
one equal to the current token (and not at end), advance and report
success. -/
def matchAny : List Token → PState → Bool × PState
  | [], st => (false, st)
  | t :: rest, st =>
    if !st.isAtEnd && (st.peek.any fun x => x == t) then (true, st.advance)
    else matchAny rest st

/-- `Parser::match_number`. -/
def matchNumber (st : PState) : Bool × PState :=
  match st.peek with
  | some (.number _) => (true, st.advance)
  | _ => (false, st)

/-- `Parser::match_string`. -/
def matchString (st : PState) : Bool × PState :=
  match st.peek with
  | some (.string_ _) => (true, st.advance)
  | _ => (false, st)

/-- Message of the panic raised by `Option::unwrap` (the
`self.previous().cloned().unwrap()` calls). -/
def unwrapMsg : String := "called Option::unwrap on a None value"

/-- The `while self.match_any(ops)` loop shared (textually repeated) by
`parse_equality`, `parse_comparison`, `parse_term` and `parse_factor`:
fold new right operands into a left-associated `Binary` chain.  `pnext`
is the next-higher-precedence parse function. -/
def binLoop (pnext : PState → PRes) (ops : List Token) : Nat → Expr → PState → PRes
  | 0, _, _ => .fuelOut
  | fuel + 1, expr, st =>
    match matchAny ops st with
    | (true, st) =>
      match st.previous with
      | some op =>
        match pnext st with
        | .ok rhs st => binLoop pnext ops fuel (.binary expr op rhs) st
        | .panic m => .panic m
        | .fuelOut => .fuelOut
      | none => .panic unwrapMsg
    | (false, st) => .ok expr st

/-- One binary precedence level: parse a left operand with `pnext`, then
run that level's operator loop. -/
def parseBinLevel (pnext : PState → PRes) (ops : List Token) (fuel : Nat) (st : PState) : PRes :=
  match pnext st with
  | .ok e st => binLoop pnext ops fuel e st
  | .panic m => .panic m
  | .fuelOut => .fuelOut

/-- `Parser::parse_primary`, with the recursive call to
`parse_expression` abstracted as `pexp`. -/
def parsePrimaryAux (pexp : PState → PRes) (st : PState) : PRes :=
  match
    (match matchAny [.false_, .true_, .nil] st with
     | (true, st) => (true, st)
     | (false, st) =>
       match matchNumber st with
       | (true, st) => (true, st)
       | (false, st) => matchString st) with
  | (true, st) =>
    match st.previous with
    | some t => .ok (.literal t) st
    | none => .panic unwrapMsg
  | (false, st) =>
    match matchAny [.leftParen] st with
    | (true, st) =>
      match pexp st with
      | .ok e st =>
        match matchAny [.rightParen] st with
        | (true, st) => .ok (.grouping e) st
        | (false, _) => .panic "Missing closing parenthesis"
      | .panic m => .panic m
      | .fuelOut => .fuelOut
    | (false, _) => .panic "Failed to parse primary expression"

/-- `Parser::parse_unary` (right recursion on itself, then
`parse_primary`), with `parse_expression` abstracted as `pexp`. -/
def parseUnaryAux (pexp : PState → PRes) : Nat → PState → PRes
  | 0, _ => .fuelOut
  | fuel + 1, st =>
    match matchAny [.not_, .minus] st with
    | (true, st) =>
      match st.previous with
      | some op =>
        match parseUnaryAux pexp fuel st with
        | .ok rhs st => .ok (.unary op rhs) st
        | .panic m => .panic m
        | .fuelOut => .fuelOut
      | none => .panic unwrapMsg
    | (false, st) => parsePrimaryAux pexp st

/-- `Parser::parse_factor`: `unary ( ( "/" | "*" ) unary )*`. -/
def parseFactorAux (pexp : PState → PRes) (fuel : Nat) : PState → PRes :=
  parseBinLevel (parseUnaryAux pexp fuel) [.slash, .star] fuel

/-- `Parser::parse_term`: `factor ( ( "+" | "-" ) factor )*`. -/
def parseTermAux (pexp : PState → PRes) (fuel : Nat) : PState → PRes :=
  parseBinLevel (parseFactorAux pexp fuel) [.plus, .minus] fuel

/-- `Parser::parse_comparison`: `term ( ( ">" | ">=" | "<" | "<=" ) term )*`. -/
def parseComparisonAux (pexp : PState → PRes) (fuel : Nat) : PState → PRes :=
  parseBinLevel (parseTermAux pexp fuel) [.gt, .ge, .lt, .le] fuel

/-- `Parser::parse_equality`: `comparison ( ( "!=" | "==" ) comparison )*`. -/
def parseEqualityAux (pexp : PState → PRes) (fuel : Nat) : PState → PRes :=
  parseBinLevel (parseComparisonAux pexp fuel) [.ne, .eqEq] fuel

/-- `Parser::parse_expression` (ties the recursive knot through the
fuel). -/
def parseExpression : Nat → PState → PRes
  | 0, _ => .fuelOut
  | fuel + 1, st => parseEqualityAux (parseExpression fuel) fuel st

/-- `Parser::parse` on a freshly constructed parser (`Parser::new(tokens).parse()`). -/
def Parser.parse (tokens : List Token) : PRes :=
  parseExpression (tokens.length + 2) ⟨tokens, 0⟩

/-! ## Renderer (`src/print.rs`) -/

/-- Modelled from the spec: the textual form of a token
(`Token::to_string`; the `Display` implementation is absent from the
source files under study, only its call sites in `src/print.rs` are).
Per §4.3: numbers print their decimal value (the literal text), strings
print their contents, keywords print their canonical spelling, operators
and punctuation print their lexeme. -/
def Token.text : Token → String
  | .ident s => s
  | .string_ s => s
  | .number s => s
  | .true_ => "true"
  | .false_ => "false"
  | .comma => ","
  | .dot => "."
  | .plus => "+"
  | .minus => "-"
  | .star => "*"
  | .slash => "/"
  | .eq => "="
  | .eqEq => "=="
  | .not_ => "!"
  | .ne => "!="
  | .gt => ">"
  | .ge => ">="
  | .lt => "<"
  | .le => "<="
  | .and_ => "and"
  | .or_ => "or"
  | .if_ => "if"
  | .else_ => "else"
  | .for_ => "for"
  | .while_ => "while"
  | .nil => "nil"
  | .fun_ => "fun"
  | .class_ => "class"
  | .return_ => "return"
  | .super_ => "super"
  | .this_ => "this"
  | .var_ => "var"
  | .print_ => "print"
  | .leftParen => "("
  | .rightParen => ")"
  | .leftBrace => "\x7b"
  | .rightBrace => "\x7d"
  | .semicolon => ";"
  | .eof => "eof"

/-- `parenthesize` from `src/print.rs`: `(` + first item + (` ` + item)*
+ `)`. -/
def parenthesize (list : List String) : String :=
  match list with
  | [] => "()"
  | first :: rest => "(" ++ first ++ String.join (rest.map fun item => " " ++ item) ++ ")"

/-- `PrettyPrinter::visit_expr` from `src/print.rs`. -/
def visitExpr : Expr → String
  | .literal t => t.text
  | .unary t e => parenthesize [t.text, visitExpr e]
  | .binary lhs op rhs => parenthesize [op.text, visitExpr lhs, visitExpr rhs]
  | .grouping e => parenthesize ["group", visitExpr e]

/-! ## Statement-side definitions used by the theorems -/

/-- Token form of the chain `a - b₁ - b₂ - ⋯ - bₖ` after the first
number: operator/number pairs followed by the `Eof` marker. -/
def minusChainToks : List String → List Token
  | [] => [.eof]
  | b :: l => .minus :: .number b :: minusChainToks l

/-- The left-associated tree the parser is claimed to build for a chain
of same-level operators: fold each new operand onto the left. -/
def leftFold (e : Expr) : List String → Expr
  | [] => e
  | b :: l => leftFold (.binary e .minus (.literal (.number b))) l

/-- A well-formed token sequence in the sense of C10: its last element is
the End-Of-Input marker and no other element is. -/
def WFToks (toks : List Token) : Prop :=
  toks.getLast? = some .eof ∧ ∀ t ∈ toks.dropLast, t ≠ .eof

instance (toks : List Token) : Decidable (WFToks toks) :=
  inferInstanceAs
    (Decidable ((toks.getLast? = some Token.eof) ∧ ∀ t ∈ toks.dropLast, t ≠ Token.eof))

/-- The recognized single/double-character lexemes of §4.1: punctuation,
single-character operators and the four doubled operators.  (Comments,
whitespace, literals and identifiers are not lexemes of this family.) -/
inductive OpLex where
  | comma
  | dot
  | plus
  | minus
  | star
  | slash
  | eq
  | eqEq
  | not_
  | ne
  | gt
  | ge
  | lt
  | le
  | leftParen
  | rightParen
  | leftBrace
  | rightBrace
  | semicolon
deriving DecidableEq, Repr

/-- The characters of an operator lexeme, as they appear in source. -/
def OpLex.chars : OpLex → List Char
  | .comma => [',']
  | .dot => ['.']
  | .plus => ['+']
  | .minus => ['-']
  | .star => ['*']
  | .slash => ['/']
  | .eq => ['=']
  | .eqEq => ['=', '=']
  | .not_ => ['!']
  | .ne => ['!', '=']
  | .gt => ['>']
  | .ge => ['>', '=']
  | .lt => ['<']
  | .le => ['<', '=']
  | .leftParen => ['(']
  | .rightParen => [')']
  | .leftBrace => ['\x7b']
  | .rightBrace => ['\x7d']
  | .semicolon => [';']

/-- The token the scanner produces for an operator lexeme. -/
def OpLex.token : OpLex → Token
  | .comma => .comma
  | .dot => .dot
  | .plus => .plus
  | .minus => .minus
  | .star => .star
  | .slash => .slash
  | .eq => .eq
  | .eqEq => .eqEq
  | .not_ => .not_
  | .ne => .ne
  | .gt => .gt
  | .ge => .ge
  | .lt => .lt
  | .le => .le
  | .leftParen => .leftParen
  | .rightParen => .rightParen
  | .leftBrace => .leftBrace
  | .rightBrace => .rightBrace
  | .semicolon => .semicolon

/-- The character that would extend this lexeme into a longer one under
the scanner's one-character lookahead: `=`, `!`, `>`, `<` extend with a
following `=` (into `==`, `!=`, `>=`, `<=`), and `/` followed by `/`
starts a comment. -/
def OpLex.extendChar : OpLex → Option Char
  | .eq => some '='
  | .not_ => some '='
  | .gt => some '='
  | .lt => some '='
  | .slash => some '/'
  | _ => none

/-- Two adjacent lexemes merge under maximal munch when the second one
starts with the first one's extension character (then the concatenation
is NOT composed of these two lexemes: e.g. `=` `=` is the single lexeme
`==`, and `/` `/` begins a comment). -/
def mergeHazard (a b : OpLex) : Bool :=
  a.extendChar.any fun c => b.chars.head?.any fun d => d == c

/-- A lexeme sequence whose concatenation really is composed of exactly
these lexemes: no adjacent pair merges. -/
def noMergeList : List OpLex → Bool
  | [] => true
  | [_] => true
  | a :: b :: rest => !mergeHazard a b && noMergeList (b :: rest)

/-- The source text spelled by a lexeme sequence. -/
def opLexRender (L : List OpLex) : List Char := (L.map OpLex.chars).join

/-- A parse step preserves the C10 cursor invariant: on success the token
vector is unchanged and the cursor still does not exceed the index of the
final `Eof` token. -/
def Preserves (p : PState → PRes) : Prop :=
  ∀ (st : PState) (e : Expr) (st' : PState), WFToks st.tokens →
    st.current ≤ st.tokens.length - 1 → p st = .ok e st' →
    st'.tokens = st.tokens ∧ st'.current ≤ st.tokens.length - 1

/-! ## Theorems -/

/-- Looking up any string other than the inserted keys in the keyword
table misses: the `HashMap::get` of the `keyword` function returns
`None`. -/
theorem keyword_not_mem (s : String) (hs : s ∉ keywordWords) : keyword s = none := by
  have h1 : s ≠ "true" := fun h => hs (by rw [h]; decide)
  have h2 : s ≠ "false" := fun h => hs (by rw [h]; decide)
  have h3 : s ≠ "and" := fun h => hs (by rw [h]; decide)
  have h4 : s ≠ "or" := fun h => hs (by rw [h]; decide)
  have h5 : s ≠ "if" := fun h => hs (by rw [h]; decide)
  have h6 : s ≠ "else" := fun h => hs (by rw [h]; decide)
  have h7 : s ≠ "for" := fun h => hs (by rw [h]; decide)
  have h8 : s ≠ "while" := fun h => hs (by rw [h]; decide)
  have h9 : s ≠ "nil" := fun h => hs (by rw [h]; decide)
  have h10 : s ≠ "fun" := fun h => hs (by rw [h]; decide)
  have h11 : s ≠ "class" := fun h => hs (by rw [h]; decide)
  have h12 : s ≠ "return" := fun h => hs (by rw [h]; decide)
  have h13 : s ≠ "super" := fun h => hs (by rw [h]; decide)
  have h14 : s ≠ "this" := fun h => hs (by rw [h]; decide)
  have h15 : s ≠ "var" := fun h => hs (by rw [h]; decide)
  have h16 : s ≠ "print" := fun h => hs (by rw [h]; decide)
  simp [keyword, h1, h2, h3, h4, h5, h6, h7, h8, h9, h10, h11, h12, h13, h14, h15, h16]

/-- C1: the claim says a failed parse (no expected token at a primary
position, or a missing closing parenthesis) returns a recoverable,
structured error value and never aborts the process.  The code instead
executes `panic!` in `Parser::parse_primary` in both situations: on the
token sequence `[Eof]` it panics with "Failed to parse primary
expression", and on `[LeftParen, Number(1), Eof]` it panics with
"Missing closing parenthesis"; no structured error value exists in the
parser at all.  This contradicts the spec's stated design (§7), which the
spec itself marks as the intended behavior, so the claim is right and the
code is the bug. -/
theorem c1_parse_primary_failure_panics :
    Parser.parse [Token.eof] = .panic "Failed to parse primary expression" ∧
    Parser.parse [Token.leftParen, Token.number "1", Token.eof] =
      .panic "Missing closing parenthesis" ∧
    ∀ e st, PRes.panic "Failed to parse primary expression" ≠ PRes.ok e st :=
  ⟨rfl, rfl, fun _ _ => by simp⟩

/-- C4: the claim says scanning is total — `read_tokens` always returns a
token sequence or a lex error, and `advance` never hits its
unreachable-index `expect`.  But `Scanner::is_at_end` compares the
*character* cursor against the *byte* length of the source
(`self.current >= self.source.len()`), while `peek` indexes characters;
after consuming any multi-byte character (inside a comment or string
literal) the cursor walks past the last character while still below the
byte length, and the `expect` in `advance` panics.  Concretely, the
inputs `//é`, `"é"` and `"é` (é is 2 UTF-8 bytes) all panic, in both
duplicate implementations. -/
theorem c4_scanner_advance_panics_on_multibyte :
    Scanner.readTokens ['/', '/', 'é'] = .panic ∧
    Scanner.readTokens ['"', 'é', '"'] = .panic ∧
    Lexer.readTokens ['/', '/', 'é'] = .panic ∧
    ∀ (ts : List Token) (e : Error),
      (ScanRes.panic : ScanRes (List Token)) ≠ .ok ts ∧
      (ScanRes.panic : ScanRes (List Token)) ≠ .err e :=
  ⟨rfl, rfl, rfl, fun _ _ => ⟨by simp, by simp⟩⟩

/-- C6 counterexample: the claim (and spec §3) says the keyword table
maps "the fixed set of 15 reserved words"; the list it then gives — and
the set of keys the code inserts — has 16 distinct words, each of which
the lookup maps to a token. -/
theorem c6_sixteen_keywords_counterexample :
    keywordWords.length ≠ 15 ∧ keywordWords.Nodup ∧
      ∀ w ∈ keywordWords, (keyword w).isSome := by decide

/-- C6 amended: the keyword table maps exactly the fixed set of **16**
reserved words `true, false, and, or, if, else, for, while, nil, fun,
class, return, super, this, var, print` to their Token variants, and any
other string misses the table, so the identifier branch of `read_token`
(`keyword(&ident).cloned().or(Some(Token::Ident(ident)))`) yields an
identifier token for it.  (The "built lazily exactly once per process,
never mutated" part concerns the `OnceLock` initialization, which the
pure-function embedding cannot observe; the lookup is modelled
extensionally.) -/
theorem c6_keyword_table_amended :
    keyword "true" = some Token.true_ ∧
    keyword "false" = some Token.false_ ∧
    keyword "and" = some Token.and_ ∧
    keyword "or" = some Token.or_ ∧
    keyword "if" = some Token.if_ ∧
    keyword "else" = some Token.else_ ∧
    keyword "for" = some Token.for_ ∧
    keyword "while" = some Token.while_ ∧
    keyword "nil" = some Token.nil ∧
    keyword "fun" = some Token.fun_ ∧
    keyword "class" = some Token.class_ ∧
    keyword "return" = some Token.return_ ∧
    keyword "super" = some Token.super_ ∧
    keyword "this" = some Token.this_ ∧
    keyword "var" = some Token.var_ ∧
    keyword "print" = some Token.print_ ∧
    ∀ s, s ∉ keywordWords →
      keyword s = none ∧ (keyword s).or (some (Token.ident s)) = some (Token.ident s) := by
  refine ⟨rfl, rfl, rfl, rfl, rfl, rfl, rfl, rfl, rfl, rfl, rfl, rfl, rfl, rfl, rfl, rfl, ?_⟩
  intro s hs
  have h := keyword_not_mem s hs
  exact ⟨h, by rw [h]; rfl⟩

/-- C6 witness: the amended theorem applied at the concrete non-keyword
`"foo"`. -/
theorem c6_keyword_table_amended_witness :
    keyword "foo" = none ∧
      (keyword "foo").or (some (Token.ident "foo")) = some (Token.ident "foo") :=
  c6_keyword_table_amended.2.2.2.2.2.2.2.2.2.2.2.2.2.2.2.2 "foo" (by decide)

/-- C7 counterexample: the claim says the parser returns a tree only once
the entire token sequence is consumed through `Eof`.  `Parser::parse` is
just `parse_expression` with no end-of-input check: on
`[Number(1), Number(2), Eof]` it returns the tree `Literal(Number(1))`
with the cursor at index 1, where the unconsumed token `Number(2)` — not
`Eof` — still remains. -/
theorem c7_trailing_tokens_counterexample :
    Parser.parse [Token.number "1", Token.number "2", Token.eof] =
      .ok (Expr.literal (Token.number "1"))
        ⟨[Token.number "1", Token.number "2", Token.eof], 1⟩ ∧
    [Token.number "1", Token.number "2", Token.eof].get? 1 = some (Token.number "2") ∧
    Token.number "2" ≠ Token.eof :=
  ⟨rfl, rfl, by decide⟩

/-- C7 amended: the parser returns the expression parsed from a prefix of
the token sequence and does not require consumption through End-Of-Input:
whenever a second number token directly follows a first one, `parse`
succeeds with the first literal alone and leaves the cursor on the
unconsumed second number token, whatever follows it. -/
theorem c7_parser_stops_early_amended (t u : String) (rest : List Token) :
    Parser.parse (Token.number t :: Token.number u :: rest) =
      .ok (Expr.literal (Token.number t)) ⟨Token.number t :: Token.number u :: rest, 1⟩ :=
  rfl

/-- C9: rendering `Binary(Unary(Minus, Literal(123)), Star,
Grouping(Literal(45.67)))` produces exactly `"(* (- 123) (group
45.67))"`, and in general `visit_expr` renders a `Binary` node as
`(` + operator text + ` ` + left + ` ` + right + `)` and a `Grouping`
node as `(group ` + inner + `)`.  (The `Display` implementation giving a
token's textual form is absent from the source files; `Token.text` is
modelled from spec §4.3.) -/
theorem c9_renderer_output :
    visitExpr (.binary (.unary Token.minus (.literal (Token.number "123"))) Token.star
        (.grouping (.literal (Token.number "45.67")))) = "(* (- 123) (group 45.67))" ∧
    (∀ (lhs : Expr) (op : Token) (rhs : Expr),
      visitExpr (.binary lhs op rhs) =
        "(" ++ op.text ++ " " ++ visitExpr lhs ++ " " ++ visitExpr rhs ++ ")") ∧
    ∀ e : Expr, visitExpr (.grouping e) = "(group " ++ visitExpr e ++ ")" := by
  refine ⟨rfl, fun lhs op rhs => ?_, fun e => ?_⟩
  · simp [visitExpr, parenthesize, String.join, String.append_assoc]
  · simp [visitExpr, parenthesize, String.join, String.append_assoc]
    rw [← String.append_assoc]
    rfl





theorem byteLen_cons (c : Char) (s : List Char) :
    byteLen (c :: s) = c.utf8Size + byteLen s := by
  simp [byteLen]

theorem byteLen_append (s t : List Char) : byteLen (s ++ t) = byteLen s + byteLen t := by
  simp [byteLen]

theorem byteLen_eq_length (s : List Char) (h : ∀ c ∈ s, c.utf8Size = 1) :
    byteLen s = s.length := by
  induction s with
  | nil => rfl
  | cons c t ih =>
    rw [byteLen_cons, h c (by simp), ih fun x hx => h x (by simp [hx])]
    simp [Nat.add_comm]

theorem peek_of_drop {st : Scanner} {c : Char} {rest : List Char}
    (h : st.source.drop st.current = c :: rest) : st.source.get? st.current = some c := by
  have hd := List.get?_drop st.source st.current 0
  rw [h] at hd
  simpa using hd.symm

theorem peek_none_of_drop {st : Scanner} (h : st.source.drop st.current = []) :
    st.source.get? st.current = none := by
  have hd := List.get?_drop st.source st.current 0
  rw [h] at hd
  simpa using hd.symm

theorem drop_succ_of_drop {α : Type} {l : List α} {n : Nat} {a : α} {t : List α}
    (h : l.drop n = a :: t) : l.drop (n + 1) = t := by
  rw [← List.drop_drop 1 n l, h]
  rfl

theorem getElem?_eq {α : Type} {l : List α} {n : Nat} {a : α} (h : l.get? n = some a) :
    l[n]? = some a := by
  rw [← List.get?_eq_getElem?]; exact h

theorem get?_of_drop {α : Type} {l : List α} {n : Nat} {a : α} {t : List α}
    (h : l.drop n = a :: t) : l.get? n = some a := by
  have hd := List.get?_drop l n 0
  rw [h] at hd
  simpa using hd.symm

theorem advance_of_get? {st : Scanner} {c : Char} (h : st.source.get? st.current = some c) :
    st.advance = .ok (c, { st with current := st.current + 1 }) := by
  unfold Scanner.advance Scanner.peek
  rw [h]

theorem stringLitLoop_unterminated :
    ∀ (rem : List Char) (fuel : Nat) (st : Scanner) (acc : String),
      st.source.drop st.current = rem →
      byteLen st.source = st.current + rem.length →
      '"' ∉ rem →
      rem.length < fuel →
      stringLitLoop fuel st acc = .err ⟨st.source, "Unterminated string"⟩ := by
  intro rem
  induction rem with
  | nil =>
    intro fuel st acc hdrop hbl _ hfuel
    obtain ⟨f, rfl⟩ : ∃ f, fuel = f + 1 := ⟨fuel - 1, by omega⟩
    have hpk := peek_none_of_drop hdrop
    have hbl' : byteLen st.source = st.current := by simpa using hbl
    have hend : st.isAtEnd = true := by simp [Scanner.isAtEnd, hbl']
    simp [stringLitLoop, Scanner.peek, hpk, hend]
  | cons c rest ih =>
    intro fuel st acc hdrop hbl hmem hfuel
    obtain ⟨f, rfl⟩ : ∃ f, fuel = f + 1 := ⟨fuel - 1, by omega⟩
    have hpk := peek_of_drop hdrop
    have hcq : (c == '"') = false := by
      simp only [beq_eq_false_iff_ne, ne_eq]
      intro h; exact hmem (by simp [h])
    have hbl' : byteLen st.source = st.current + rest.length + 1 := by
      simp only [List.length] at hbl; omega
    have hend : st.isAtEnd = false := by
      simp only [Scanner.isAtEnd, decide_eq_false_iff_not, Nat.not_le]
      omega
    have ihres := fun ln => ih f ⟨st.source, ln, st.current + 1⟩ (acc.push c)
      (drop_succ_of_drop hdrop)
      (by simp only [List.length]; omega)
      (fun h => hmem (by simp [h]))
      (by simp only [List.length] at hfuel; omega)
    cases hnl : (c == '\n') with
    | true =>
      rw [stringLitLoop]
      simp only [Scanner.peek, hpk, Option.any_some, hcq, Bool.not_false, hend, Bool.and_self,
        if_true, hnl, reduceIte,
        @advance_of_get? ⟨st.source, st.line + 1, st.current⟩ _ hpk]
      exact ihres _
    | false =>
      rw [stringLitLoop]
      simp only [Scanner.peek, hpk, Option.any_some, hcq, Bool.not_false, hend, Bool.and_self,
        if_true, hnl, Bool.false_eq_true, if_false, advance_of_get? hpk]
      exact ihres _





theorem data_push (s : String) (c : Char) : (s.push c).data = s.data ++ [c] := rfl

theorem stringLitLoop_closed :
    ∀ (body : List Char) (fuel : Nat) (st : Scanner) (acc : String) (tail : List Char),
      st.source.drop st.current = body ++ '"' :: tail →
      st.current + body.length < byteLen st.source →
      '"' ∉ body →
      body.length < fuel →
      ∃ ln, stringLitLoop fuel st acc =
        .ok (⟨acc.data ++ body⟩, ⟨st.source, ln, st.current + body.length + 1⟩) := by
  intro body
  induction body with
  | nil =>
    intro fuel st acc tail hdrop hlt _ hfuel
    simp only [List.length_nil] at hlt hfuel
    obtain ⟨f, rfl⟩ : ∃ f, fuel = f + 1 := ⟨fuel - 1, by omega⟩
    have hpk := peek_of_drop (by simpa using hdrop)
    have hend : st.isAtEnd = false := by
      simp only [Scanner.isAtEnd, decide_eq_false_iff_not, Nat.not_le]
      omega
    refine ⟨st.line, ?_⟩
    rw [stringLitLoop]
    simp only [Scanner.peek, hpk, Option.any_some, beq_self_eq_true, Bool.not_true,
      Bool.false_and, Bool.false_eq_true, if_false, hend, advance_of_get? hpk]
    simp
  | cons c rest ih =>
    intro fuel st acc tail hdrop hlt hmem hfuel
    simp only [List.length_cons] at hlt hfuel
    obtain ⟨f, rfl⟩ : ∃ f, fuel = f + 1 := ⟨fuel - 1, by omega⟩
    have hpk := peek_of_drop (by simpa using hdrop)
    have hcq : (c == '"') = false := by
      simp only [beq_eq_false_iff_ne, ne_eq]
      intro h; exact hmem (by simp [h])
    have hend : st.isAtEnd = false := by
      simp only [Scanner.isAtEnd, decide_eq_false_iff_not, Nat.not_le]
      omega
    have harith : st.current + (c :: rest).length + 1 = st.current + 1 + rest.length + 1 := by
      simp only [List.length_cons]; omega
    have hstr : acc.data ++ c :: rest = (acc.push c).data ++ rest := by
      simp [data_push]
    have ihres := fun ln => ih f ⟨st.source, ln, st.current + 1⟩ (acc.push c) tail
      (by simpa using drop_succ_of_drop hdrop)
      (by simp only [List.length_cons] at hlt ⊢; omega)
      (fun h => hmem (by simp [h]))
      (by omega)
    cases hnl : (c == '\n') with
    | true =>
      obtain ⟨ln, hres⟩ := ihres (st.line + 1)
      refine ⟨ln, ?_⟩
      rw [stringLitLoop]
      simp only [Scanner.peek, hpk, Option.any_some, hcq, Bool.not_false, hend, Bool.and_self,
        if_true, hnl,
        @advance_of_get? ⟨st.source, st.line + 1, st.current⟩ _ hpk]
      rw [harith, hstr]
      exact hres
    | false =>
      obtain ⟨ln, hres⟩ := ihres st.line
      refine ⟨ln, ?_⟩
      rw [stringLitLoop]
      simp only [Scanner.peek, hpk, Option.any_some, hcq, Bool.not_false, hend, Bool.and_self,
        if_true, hnl, Bool.false_eq_true, if_false, advance_of_get? hpk]
      rw [harith, hstr]
      exact hres

theorem commentLoop_stops :
    ∀ (body : List Char) (fuel : Nat) (st : Scanner) (tail : List Char),
      st.source.drop st.current = body ++ tail →
      (tail.head? = some '\n' ∨ (tail = [] ∧ byteLen st.source = st.current + body.length)) →
      st.current + body.length ≤ byteLen st.source →
      '\n' ∉ body →
      body.length < fuel →
      commentLoop fuel st = .ok ⟨st.source, st.line, st.current + body.length⟩ := by
  intro body
  induction body with
  | nil =>
    intro fuel st tail hdrop hstop hle hmem hfuel
    simp only [List.length_nil] at hle hfuel
    obtain ⟨f, rfl⟩ : ∃ f, fuel = f + 1 := ⟨fuel - 1, by omega⟩
    rcases hstop with hnl | ⟨rfl, hbl⟩
    · cases tail with
      | nil => simp at hnl
      | cons a tt =>
        have ha : a = '\n' := by simpa using hnl
        subst ha
        have hpk := peek_of_drop (show st.source.drop st.current = '\n' :: tt by
          simpa using hdrop)
        rw [commentLoop]
        simp only [Scanner.peek, hpk, Option.any_some, beq_self_eq_true, Bool.not_true,
          Bool.false_and, Bool.false_eq_true, if_false]
        rfl
    · simp only [List.length_nil, Nat.add_zero] at hbl
      have hpk := peek_none_of_drop (by simpa using hdrop)
      have hend : st.isAtEnd = true := by
        simp only [Scanner.isAtEnd, decide_eq_true_eq]
        omega
      rw [commentLoop]
      simp only [Scanner.peek, hpk, Option.any_none, Bool.not_false, hend, Bool.not_true,
        Bool.and_false, Bool.false_eq_true, if_false]
      rfl
  | cons c rest ih =>
    intro fuel st tail hdrop hstop hle hmem hfuel
    simp only [List.length_cons] at hle hfuel
    obtain ⟨f, rfl⟩ : ∃ f, fuel = f + 1 := ⟨fuel - 1, by omega⟩
    have hpk := peek_of_drop (show st.source.drop st.current = c :: (rest ++ tail) by
      simpa using hdrop)
    have hcq : (c == '\n') = false := by
      simp only [beq_eq_false_iff_ne, ne_eq]
      intro h; exact hmem (by simp [h])
    have hend : st.isAtEnd = false := by
      simp only [Scanner.isAtEnd, decide_eq_false_iff_not, Nat.not_le]
      omega
    have harith : st.current + (c :: rest).length = st.current + 1 + rest.length := by
      simp only [List.length_cons]; omega
    have hres := ih f ⟨st.source, st.line, st.current + 1⟩ tail
      (show st.source.drop (st.current + 1) = rest ++ tail from
        drop_succ_of_drop (show st.source.drop st.current = c :: (rest ++ tail) by
          simpa using hdrop))
      (show tail.head? = some '\n' ∨
          (tail = [] ∧ byteLen st.source = st.current + 1 + rest.length) by
        rcases hstop with hnl | ⟨rfl, hbl⟩
        · exact Or.inl hnl
        · refine Or.inr ⟨rfl, ?_⟩
          simp only [List.length_cons, List.length_nil, Nat.add_zero] at hbl ⊢
          omega)
      (show st.current + 1 + rest.length ≤ byteLen st.source by omega)
      (fun h => hmem (by simp [h]))
      (show rest.length < f by omega)
    rw [commentLoop]
    simp only [Scanner.peek, hpk, Option.any_some, hcq, Bool.not_false, hend, Bool.and_self,
      if_true, advance_of_get? hpk]
    rw [harith]
    exact hres





theorem getElem?_of_get? {l : List Char} {n : Nat} {c : Char} (h : l.get? n = some c) :
    l[n]? = some c := by
  rw [← List.get?_eq_getElem?]; exact h

theorem nextMatches_true {st : Scanner} {c : Char} (hlt : st.current < byteLen st.source)
    (h : st.source.get? st.current = some c) :
    st.nextMatches c = (true, { st with current := st.current + 1 }) := by
  have hf : st.isAtEnd = false := by
    simp only [Scanner.isAtEnd, decide_eq_false_iff_not, Nat.not_le]
    omega
  simp [Scanner.nextMatches, hf, Scanner.peek, getElem?_of_get? h]

theorem readToken_quote {st : Scanner} (h : st.source.get? st.current = some '"') :
    readToken st = match Scanner.stringLit { st with current := st.current + 1 } with
      | .ok (s, st') => .ok (some (.string_ s), st')
      | .err e => .err e
      | .panic => .panic
      | .fuelOut => .fuelOut := by
  rw [readToken, advance_of_get? h]
  rfl

theorem readToken_comment {st : Scanner} (h1 : st.source.get? st.current = some '/')
    (h2 : st.source.get? (st.current + 1) = some '/')
    (hlt : st.current + 1 < byteLen st.source) :
    readToken st = match Scanner.comment { st with current := st.current + 2 } with
      | .ok st' => .ok (none, st')
      | .err e => .err e
      | .panic => .panic
      | .fuelOut => .fuelOut := by
  have step1 : readToken st =
      (match ({ st with current := st.current + 1 } : Scanner).nextMatches '/' with
       | (m, st₂) =>
         if m = true then
           (match st₂.comment with
            | .ok st' => .ok (none, st')
            | .err e => .err e
            | .panic => .panic
            | .fuelOut => .fuelOut)
         else .ok (some .slash, st₂)) := by
    rw [readToken, advance_of_get? h1]
    rfl
  rw [step1, @nextMatches_true { st with current := st.current + 1 } '/' hlt h2]
  rfl

theorem keyword_ne_some_eof (s : String) : keyword s ≠ some Token.eof := by
  by_cases h1 : s = "true"
  · simp [keyword, h1]
  by_cases h2 : s = "false"
  · simp [keyword, h1, h2]
  by_cases h3 : s = "and"
  · simp [keyword, h1, h2, h3]
  by_cases h4 : s = "or"
  · simp [keyword, h1, h2, h3, h4]
  by_cases h5 : s = "if"
  · simp [keyword, h1, h2, h3, h4, h5]
  by_cases h6 : s = "else"
  · simp [keyword, h1, h2, h3, h4, h5, h6]
  by_cases h7 : s = "for"
  · simp [keyword, h1, h2, h3, h4, h5, h6, h7]
  by_cases h8 : s = "while"
  · simp [keyword, h1, h2, h3, h4, h5, h6, h7, h8]
  by_cases h9 : s = "nil"
  · simp [keyword, h1, h2, h3, h4, h5, h6, h7, h8, h9]
  by_cases h10 : s = "fun"
  · simp [keyword, h1, h2, h3, h4, h5, h6, h7, h8, h9, h10]
  by_cases h11 : s = "class"
  · simp [keyword, h1, h2, h3, h4, h5, h6, h7, h8, h9, h10, h11]
  by_cases h12 : s = "return"
  · simp [keyword, h1, h2, h3, h4, h5, h6, h7, h8, h9, h10, h11, h12]
  by_cases h13 : s = "super"
  · simp [keyword, h1, h2, h3, h4, h5, h6, h7, h8, h9, h10, h11, h12, h13]
  by_cases h14 : s = "this"
  · simp [keyword, h1, h2, h3, h4, h5, h6, h7, h8, h9, h10, h11, h12, h13, h14]
  by_cases h15 : s = "var"
  · simp [keyword, h1, h2, h3, h4, h5, h6, h7, h8, h9, h10, h11, h12, h13, h14, h15]
  by_cases h16 : s = "print"
  · simp [keyword, h1, h2, h3, h4, h5, h6, h7, h8, h9, h10, h11, h12, h13, h14, h15, h16]
  simp [keyword, h1, h2, h3, h4, h5, h6, h7, h8, h9, h10, h11, h12, h13, h14, h15, h16]

theorem keywordOr_ne_eof {s : String} {a : Scanner} {t : Token} {b : Scanner}
    (h : (ScanRes.ok ((keyword s).or (some (Token.ident s)), a) :
        ScanRes (Option Token × Scanner)) = .ok (some t, b)) : t ≠ Token.eof := by
  intro hteq
  subst hteq
  cases hk : keyword s with
  | none => rw [hk] at h; simp_all
  | some k =>
    rw [hk] at h
    simp only [ScanRes.ok.injEq, Prod.mk.injEq, Option.or] at h
    exact keyword_ne_some_eof s (by rw [hk]; exact h.1)





theorem ok_some_token_ne_eof {x : Token} {a : Scanner} {t : Token} {b : Scanner}
    (h : (ScanRes.ok (some x, a) : ScanRes (Option Token × Scanner)) = .ok (some t, b))
    (hx : x ≠ Token.eof) : t ≠ Token.eof := by
  obtain ⟨h1, -⟩ : x = t ∧ a = b := by simpa using h
  exact h1 ▸ hx

set_option maxHeartbeats 1000000 in
theorem readToken_ne_eof {st st' : Scanner} {t : Token}
    (h : readToken st = .ok (some t, st')) : t ≠ Token.eof := by
  rw [readToken] at h
  split at h
  rotate_left
  · exact ScanRes.noConfusion h
  · exact ScanRes.noConfusion h
  · exact ScanRes.noConfusion h
  rename_i c st1 heq
  by_cases hc1 : c = '\"'
  · rw [if_pos hc1] at h
    cases hsl : st1.stringLit with
    | ok p =>
      obtain ⟨s, st2⟩ := p
      rw [hsl] at h
      exact ok_some_token_ne_eof h (by simp)
    | err e => rw [hsl] at h; exact ScanRes.noConfusion h
    | panic => rw [hsl] at h; exact ScanRes.noConfusion h
    | fuelOut => rw [hsl] at h; exact ScanRes.noConfusion h
  rw [if_neg hc1] at h
  by_cases hc2 : c = ','
  · rw [if_pos hc2] at h
    exact ok_some_token_ne_eof h (by simp)
  rw [if_neg hc2] at h
  by_cases hc3 : c = '.'
  · rw [if_pos hc3] at h
    exact ok_some_token_ne_eof h (by simp)
  rw [if_neg hc3] at h
  by_cases hc4 : c = '+'
  · rw [if_pos hc4] at h
    exact ok_some_token_ne_eof h (by simp)
  rw [if_neg hc4] at h
  by_cases hc5 : c = '-'
  · rw [if_pos hc5] at h
    exact ok_some_token_ne_eof h (by simp)
  rw [if_neg hc5] at h
  by_cases hc6 : c = '*'
  · rw [if_pos hc6] at h
    exact ok_some_token_ne_eof h (by simp)
  rw [if_neg hc6] at h
  by_cases hc7 : c = '='
  · rw [if_pos hc7] at h
    rcases hnm : Scanner.nextMatches '=' st1 with ⟨m, st2⟩
    rw [hnm] at h
    cases m
    · exact ok_some_token_ne_eof h (by simp)
    · exact ok_some_token_ne_eof h (by simp)
  rw [if_neg hc7] at h
  by_cases hc8 : c = '!'
  · rw [if_pos hc8] at h
    rcases hnm : Scanner.nextMatches '=' st1 with ⟨m, st2⟩
    rw [hnm] at h
    cases m
    · exact ok_some_token_ne_eof h (by simp)
    · exact ok_some_token_ne_eof h (by simp)
  rw [if_neg hc8] at h
  by_cases hc9 : c = '>'
  · rw [if_pos hc9] at h
    rcases hnm : Scanner.nextMatches '=' st1 with ⟨m, st2⟩
    rw [hnm] at h
    cases m
    · exact ok_some_token_ne_eof h (by simp)
    · exact ok_some_token_ne_eof h (by simp)
  rw [if_neg hc9] at h
  by_cases hc10 : c = '<'
  · rw [if_pos hc10] at h
    rcases hnm : Scanner.nextMatches '=' st1 with ⟨m, st2⟩
    rw [hnm] at h
    cases m
    · exact ok_some_token_ne_eof h (by simp)
    · exact ok_some_token_ne_eof h (by simp)
  rw [if_neg hc10] at h
  by_cases hc11 : c = '('
  · rw [if_pos hc11] at h
    exact ok_some_token_ne_eof h (by simp)
  rw [if_neg hc11] at h
  by_cases hc12 : c = ')'
  · rw [if_pos hc12] at h
    exact ok_some_token_ne_eof h (by simp)
  rw [if_neg hc12] at h
  by_cases hc13 : c = '\x7b'
  · rw [if_pos hc13] at h
    exact ok_some_token_ne_eof h (by simp)
  rw [if_neg hc13] at h
  by_cases hc14 : c = '\x7d'
  · rw [if_pos hc14] at h
    exact ok_some_token_ne_eof h (by simp)
  rw [if_neg hc14] at h
  by_cases hc15 : c = ';'
  · rw [if_pos hc15] at h
    exact ok_some_token_ne_eof h (by simp)
  rw [if_neg hc15] at h
  by_cases hc16 : c = '/'
  · rw [if_pos hc16] at h
    rcases hnm : Scanner.nextMatches '/' st1 with ⟨m, st2⟩
    rw [hnm] at h
    cases m
    · exact ok_some_token_ne_eof h (by simp)
    · replace h : (match st2.comment with
          | .ok st3 => (ScanRes.ok (none, st3) : ScanRes (Option Token × Scanner))
          | .err e => .err e
          | .panic => .panic
          | .fuelOut => .fuelOut) = ScanRes.ok (some t, st') := h
      cases hcm : st2.comment with
      | ok st3 => rw [hcm] at h; exact absurd h (by simp)
      | err e => rw [hcm] at h; exact ScanRes.noConfusion h
      | panic => rw [hcm] at h; exact ScanRes.noConfusion h
      | fuelOut => rw [hcm] at h; exact ScanRes.noConfusion h
  rw [if_neg hc16] at h
  repeat' split at h
  all_goals
    first
    | exact ScanRes.noConfusion h
    | exact ok_some_token_ne_eof h (by simp)
    | exact keywordOr_ne_eof h
    | exact absurd h (by simp)

theorem readTokensLoop_no_eof :
    ∀ (fuel : Nat) (st : Scanner) (acc ts : List Token),
      readTokensLoop fuel st acc = .ok ts →
      (∀ x ∈ acc, x ≠ Token.eof) → ∀ x ∈ ts, x ≠ Token.eof := by
  intro fuel
  induction fuel with
  | zero =>
    intro st acc ts h
    exact absurd h (by simp [readTokensLoop])
  | succ f ih =>
    intro st acc ts h hacc
    rw [readTokensLoop] at h
    split at h
    · split at h
      · rename_i t st2 heq
        exact ih _ _ _ h (by
          intro x hx
          rcases List.mem_append.mp hx with h1 | h1
          · exact hacc x h1
          · have hx2 : x = t := by simpa using h1
            exact hx2 ▸ readToken_ne_eof heq)
      · rename_i st2 heq
        exact ih _ _ _ h hacc
      · exact ScanRes.noConfusion h
      · exact ScanRes.noConfusion h
      · exact ScanRes.noConfusion h
    · obtain rfl : acc = ts := by simpa using h
      exact hacc

theorem get?_none_of_drop {α : Type} {l : List α} {n : Nat} (h : l.drop n = []) :
    l.get? n = none := by
  have hd := List.get?_drop l n 0
  rw [h] at hd
  simpa using hd.symm

theorem drop_append_of_drop {α : Type} {a : List α} : ∀ {l : List α} {n : Nat} {b : List α},
    l.drop n = a ++ b → l.drop (n + a.length) = b := by
  induction a with
  | nil => intro l n b h; simpa using h
  | cons x a ih =>
    intro l n b h
    have h1 : l.drop (n + 1) = a ++ b := drop_succ_of_drop (by simpa using h)
    have h2 := ih h1
    rw [show n + (x :: a).length = n + 1 + a.length from by simp; omega]
    exact h2

theorem nextMatches_false {st : Scanner} {c : Char}
    (h : (st.peek.any fun next => next == c) = false) :
    st.nextMatches c = (false, st) := by
  unfold Scanner.nextMatches
  split
  · rfl
  · rw [h]
    rfl

theorem opLex_chars_single (lx : OpLex) : ∀ c ∈ lx.chars, c.utf8Size = 1 := by
  cases lx <;> decide

theorem opLex_chars_ne_nil (lx : OpLex) : lx.chars ≠ [] := by
  cases lx <;> decide

theorem opLexRender_cons (lx : OpLex) (L : List OpLex) :
    opLexRender (lx :: L) = lx.chars ++ opLexRender L := by
  simp [opLexRender]

theorem opLexRender_single (L : List OpLex) : ∀ c ∈ opLexRender L, c.utf8Size = 1 := by
  induction L with
  | nil => intro c hc; simp [opLexRender] at hc
  | cons lx L ih =>
    intro c hc
    rw [opLexRender_cons] at hc
    rcases List.mem_append.mp hc with h | h
    · exact opLex_chars_single lx c h
    · exact ih c h

set_option maxHeartbeats 1000000 in
theorem readToken_opLex {lx : OpLex} {st : Scanner} {rest : List Char}
    (hdrop : st.source.drop st.current = lx.chars ++ rest)
    (hbl : byteLen st.source = st.current + (lx.chars.length + rest.length))
    (hsafe : ∀ c, lx.extendChar = some c → (rest.head?.any fun d => d == c) = false) :
    readToken st = .ok (some lx.token, ⟨st.source, st.line, st.current + lx.chars.length⟩) := by
  cases lx
  case comma =>
    have hpk : st.source.get? st.current = some ',' :=
      get?_of_drop (by simpa [OpLex.chars] using hdrop)
    rw [readToken, advance_of_get? hpk]
    rfl
  case dot =>
    have hpk : st.source.get? st.current = some '.' :=
      get?_of_drop (by simpa [OpLex.chars] using hdrop)
    rw [readToken, advance_of_get? hpk]
    rfl
  case plus =>
    have hpk : st.source.get? st.current = some '+' :=
      get?_of_drop (by simpa [OpLex.chars] using hdrop)
    rw [readToken, advance_of_get? hpk]
    rfl
  case minus =>
    have hpk : st.source.get? st.current = some '-' :=
      get?_of_drop (by simpa [OpLex.chars] using hdrop)
    rw [readToken, advance_of_get? hpk]
    rfl
  case star =>
    have hpk : st.source.get? st.current = some '*' :=
      get?_of_drop (by simpa [OpLex.chars] using hdrop)
    rw [readToken, advance_of_get? hpk]
    rfl
  case leftParen =>
    have hpk : st.source.get? st.current = some '(' :=
      get?_of_drop (by simpa [OpLex.chars] using hdrop)
    rw [readToken, advance_of_get? hpk]
    rfl
  case rightParen =>
    have hpk : st.source.get? st.current = some ')' :=
      get?_of_drop (by simpa [OpLex.chars] using hdrop)
    rw [readToken, advance_of_get? hpk]
    rfl
  case leftBrace =>
    have hpk : st.source.get? st.current = some '\x7b' :=
      get?_of_drop (by simpa [OpLex.chars] using hdrop)
    rw [readToken, advance_of_get? hpk]
    rfl
  case rightBrace =>
    have hpk : st.source.get? st.current = some '\x7d' :=
      get?_of_drop (by simpa [OpLex.chars] using hdrop)
    rw [readToken, advance_of_get? hpk]
    rfl
  case semicolon =>
    have hpk : st.source.get? st.current = some ';' :=
      get?_of_drop (by simpa [OpLex.chars] using hdrop)
    rw [readToken, advance_of_get? hpk]
    rfl
  case eq =>
    have hpk : st.source.get? st.current = some '=' :=
      get?_of_drop (by simpa [OpLex.chars] using hdrop)
    have hd1 : st.source.drop (st.current + 1) = rest :=
      drop_succ_of_drop (by simpa [OpLex.chars] using hdrop)
    have hne : ((⟨st.source, st.line, st.current + 1⟩ : Scanner).peek.any
        fun next => next == '=') = false := by
      cases rest with
      | nil =>
        have h0 : st.source.get? (st.current + 1) = none := get?_none_of_drop hd1
        have h0g : st.source[st.current + 1]? = none := by
          rw [← List.get?_eq_getElem?]; exact h0
        simp [Scanner.peek, h0, h0g]
      | cons d rest2 =>
        have h0 : st.source.get? (st.current + 1) = some d := get?_of_drop hd1
        have hs : (d == '=') = false := by
          simpa using hsafe '=' rfl
        simp [Scanner.peek, h0, getElem?_eq h0, hs]
    have step : readToken st =
        (match (⟨st.source, st.line, st.current + 1⟩ : Scanner).nextMatches '=' with
         | (m, st₂) => .ok (some (if m then Token.eqEq else Token.eq), st₂)) := by
      rw [readToken, advance_of_get? hpk]
      rfl
    rw [step, nextMatches_false hne]
    rfl
  case not_ =>
    have hpk : st.source.get? st.current = some '!' :=
      get?_of_drop (by simpa [OpLex.chars] using hdrop)
    have hd1 : st.source.drop (st.current + 1) = rest :=
      drop_succ_of_drop (by simpa [OpLex.chars] using hdrop)
    have hne : ((⟨st.source, st.line, st.current + 1⟩ : Scanner).peek.any
        fun next => next == '=') = false := by
      cases rest with
      | nil =>
        have h0 : st.source.get? (st.current + 1) = none := get?_none_of_drop hd1
        have h0g : st.source[st.current + 1]? = none := by
          rw [← List.get?_eq_getElem?]; exact h0
        simp [Scanner.peek, h0, h0g]
      | cons d rest2 =>
        have h0 : st.source.get? (st.current + 1) = some d := get?_of_drop hd1
        have hs : (d == '=') = false := by
          simpa using hsafe '=' rfl
        simp [Scanner.peek, h0, getElem?_eq h0, hs]
    have step : readToken st =
        (match (⟨st.source, st.line, st.current + 1⟩ : Scanner).nextMatches '=' with
         | (m, st₂) => .ok (some (if m then Token.ne else Token.not_), st₂)) := by
      rw [readToken, advance_of_get? hpk]
      rfl
    rw [step, nextMatches_false hne]
    rfl
  case gt =>
    have hpk : st.source.get? st.current = some '>' :=
      get?_of_drop (by simpa [OpLex.chars] using hdrop)
    have hd1 : st.source.drop (st.current + 1) = rest :=
      drop_succ_of_drop (by simpa [OpLex.chars] using hdrop)
    have hne : ((⟨st.source, st.line, st.current + 1⟩ : Scanner).peek.any
        fun next => next == '=') = false := by
      cases rest with
      | nil =>
        have h0 : st.source.get? (st.current + 1) = none := get?_none_of_drop hd1
        have h0g : st.source[st.current + 1]? = none := by
          rw [← List.get?_eq_getElem?]; exact h0
        simp [Scanner.peek, h0, h0g]
      | cons d rest2 =>
        have h0 : st.source.get? (st.current + 1) = some d := get?_of_drop hd1
        have hs : (d == '=') = false := by
          simpa using hsafe '=' rfl
        simp [Scanner.peek, h0, getElem?_eq h0, hs]
    have step : readToken st =
        (match (⟨st.source, st.line, st.current + 1⟩ : Scanner).nextMatches '=' with
         | (m, st₂) => .ok (some (if m then Token.ge else Token.gt), st₂)) := by
      rw [readToken, advance_of_get? hpk]
      rfl
    rw [step, nextMatches_false hne]
    rfl
  case lt =>
    have hpk : st.source.get? st.current = some '<' :=
      get?_of_drop (by simpa [OpLex.chars] using hdrop)
    have hd1 : st.source.drop (st.current + 1) = rest :=
      drop_succ_of_drop (by simpa [OpLex.chars] using hdrop)
    have hne : ((⟨st.source, st.line, st.current + 1⟩ : Scanner).peek.any
        fun next => next == '=') = false := by
      cases rest with
      | nil =>
        have h0 : st.source.get? (st.current + 1) = none := get?_none_of_drop hd1
        have h0g : st.source[st.current + 1]? = none := by
          rw [← List.get?_eq_getElem?]; exact h0
        simp [Scanner.peek, h0, h0g]
      | cons d rest2 =>
        have h0 : st.source.get? (st.current + 1) = some d := get?_of_drop hd1
        have hs : (d == '=') = false := by
          simpa using hsafe '=' rfl
        simp [Scanner.peek, h0, getElem?_eq h0, hs]
    have step : readToken st =
        (match (⟨st.source, st.line, st.current + 1⟩ : Scanner).nextMatches '=' with
         | (m, st₂) => .ok (some (if m then Token.le else Token.lt), st₂)) := by
      rw [readToken, advance_of_get? hpk]
      rfl
    rw [step, nextMatches_false hne]
    rfl
  case slash =>
    have hpk : st.source.get? st.current = some '/' :=
      get?_of_drop (by simpa [OpLex.chars] using hdrop)
    have hd1 : st.source.drop (st.current + 1) = rest :=
      drop_succ_of_drop (by simpa [OpLex.chars] using hdrop)
    have hne : ((⟨st.source, st.line, st.current + 1⟩ : Scanner).peek.any
        fun next => next == '/') = false := by
      cases rest with
      | nil =>
        have h0 : st.source.get? (st.current + 1) = none := get?_none_of_drop hd1
        have h0g : st.source[st.current + 1]? = none := by
          rw [← List.get?_eq_getElem?]; exact h0
        simp [Scanner.peek, h0, h0g]
      | cons d rest2 =>
        have h0 : st.source.get? (st.current + 1) = some d := get?_of_drop hd1
        have hs : (d == '/') = false := by
          simpa using hsafe '/' rfl
        simp [Scanner.peek, h0, getElem?_eq h0, hs]
    have step : readToken st =
        (match (⟨st.source, st.line, st.current + 1⟩ : Scanner).nextMatches '/' with
         | (m, st₂) =>
           if m then
             (match st₂.comment with
              | .ok st3 => (ScanRes.ok (none, st3) : ScanRes (Option Token × Scanner))
              | .err e => .err e
              | .panic => .panic
              | .fuelOut => .fuelOut)
           else .ok (some Token.slash, st₂)) := by
      rw [readToken, advance_of_get? hpk]
      rfl
    rw [step, nextMatches_false hne]
    rfl
  case eqEq =>
    have hpk : st.source.get? st.current = some '=' :=
      get?_of_drop (by simpa [OpLex.chars] using hdrop)
    have hd1 : st.source.drop (st.current + 1) = '=' :: rest :=
      drop_succ_of_drop (by simpa [OpLex.chars] using hdrop)
    have hpk2 : st.source.get? (st.current + 1) = some '=' := get?_of_drop hd1
    have hlt : st.current + 1 < byteLen st.source := by
      simp [OpLex.chars] at hbl
      omega
    have step : readToken st =
        (match (⟨st.source, st.line, st.current + 1⟩ : Scanner).nextMatches '=' with
         | (m, st₂) => .ok (some (if m then Token.eqEq else Token.eq), st₂)) := by
      rw [readToken, advance_of_get? hpk]
      rfl
    rw [step, @nextMatches_true ⟨st.source, st.line, st.current + 1⟩ '=' hlt hpk2]
    rfl
  case ne =>
    have hpk : st.source.get? st.current = some '!' :=
      get?_of_drop (by simpa [OpLex.chars] using hdrop)
    have hd1 : st.source.drop (st.current + 1) = '=' :: rest :=
      drop_succ_of_drop (by simpa [OpLex.chars] using hdrop)
    have hpk2 : st.source.get? (st.current + 1) = some '=' := get?_of_drop hd1
    have hlt : st.current + 1 < byteLen st.source := by
      simp [OpLex.chars] at hbl
      omega
    have step : readToken st =
        (match (⟨st.source, st.line, st.current + 1⟩ : Scanner).nextMatches '=' with
         | (m, st₂) => .ok (some (if m then Token.ne else Token.not_), st₂)) := by
      rw [readToken, advance_of_get? hpk]
      rfl
    rw [step, @nextMatches_true ⟨st.source, st.line, st.current + 1⟩ '=' hlt hpk2]
    rfl
  case ge =>
    have hpk : st.source.get? st.current = some '>' :=
      get?_of_drop (by simpa [OpLex.chars] using hdrop)
    have hd1 : st.source.drop (st.current + 1) = '=' :: rest :=
      drop_succ_of_drop (by simpa [OpLex.chars] using hdrop)
    have hpk2 : st.source.get? (st.current + 1) = some '=' := get?_of_drop hd1
    have hlt : st.current + 1 < byteLen st.source := by
      simp [OpLex.chars] at hbl
      omega
    have step : readToken st =
        (match (⟨st.source, st.line, st.current + 1⟩ : Scanner).nextMatches '=' with
         | (m, st₂) => .ok (some (if m then Token.ge else Token.gt), st₂)) := by
      rw [readToken, advance_of_get? hpk]
      rfl
    rw [step, @nextMatches_true ⟨st.source, st.line, st.current + 1⟩ '=' hlt hpk2]
    rfl
  case le =>
    have hpk : st.source.get? st.current = some '<' :=
      get?_of_drop (by simpa [OpLex.chars] using hdrop)
    have hd1 : st.source.drop (st.current + 1) = '=' :: rest :=
      drop_succ_of_drop (by simpa [OpLex.chars] using hdrop)
    have hpk2 : st.source.get? (st.current + 1) = some '=' := get?_of_drop hd1
    have hlt : st.current + 1 < byteLen st.source := by
      simp [OpLex.chars] at hbl
      omega
    have step : readToken st =
        (match (⟨st.source, st.line, st.current + 1⟩ : Scanner).nextMatches '=' with
         | (m, st₂) => .ok (some (if m then Token.le else Token.lt), st₂)) := by
      rw [readToken, advance_of_get? hpk]
      rfl
    rw [step, @nextMatches_true ⟨st.source, st.line, st.current + 1⟩ '=' hlt hpk2]
    rfl

theorem opLexRender_length_ge (L : List OpLex) : L.length ≤ (opLexRender L).length := by
  induction L with
  | nil => simp [opLexRender]
  | cons lx L ih =>
    rw [opLexRender_cons]
    have h1 : 1 ≤ lx.chars.length := by
      cases hc : lx.chars with
      | nil => exact absurd hc (opLex_chars_ne_nil lx)
      | cons _ _ => simp
    simp only [List.length_append, List.length_cons]
    omega

set_option maxHeartbeats 1000000 in
theorem readTokensLoop_opLex (L : List OpLex) :
    ∀ (fuel : Nat) (st : Scanner) (acc : List Token),
    st.source.drop st.current = opLexRender L →
    byteLen st.source = st.current + (opLexRender L).length →
    noMergeList L = true →
    L.length + 1 ≤ fuel →
    readTokensLoop fuel st acc = .ok (acc ++ L.map OpLex.token) := by
  induction L with
  | nil =>
    intro fuel st acc hdrop hbl _ hfuel
    obtain ⟨f, rfl⟩ : ∃ f, fuel = f + 1 := ⟨fuel - 1, by omega⟩
    rw [readTokensLoop]
    have hend : st.isAtEnd = true := by
      simp only [Scanner.isAtEnd, decide_eq_true_eq]
      simp only [opLexRender, List.map_nil, List.join_nil, List.length_nil] at hbl
      omega
    rw [hend]
    simp
  | cons lx L ih =>
    intro fuel st acc hdrop hbl hnm hfuel
    obtain ⟨f, rfl⟩ : ∃ f, fuel = f + 1 := ⟨fuel - 1, by omega⟩
    rw [opLexRender_cons] at hdrop hbl
    simp only [List.length_append] at hbl
    have hchars1 : 1 ≤ lx.chars.length := by
      cases hc : lx.chars with
      | nil => exact absurd hc (opLex_chars_ne_nil lx)
      | cons _ _ => simp
    have hend : st.isAtEnd = false := by
      simp only [Scanner.isAtEnd, decide_eq_false_iff_not]
      omega
    have hnmtail : noMergeList L = true := by
      cases L with
      | nil => rfl
      | cons lx2 L2 =>
        simp only [noMergeList, Bool.and_eq_true] at hnm
        exact hnm.2
    have hsafe : ∀ c, lx.extendChar = some c →
        ((opLexRender L).head?.any fun d => d == c) = false := by
      intro c hc
      cases L with
      | nil => simp [opLexRender]
      | cons lx2 L2 =>
        have hmh : mergeHazard lx lx2 = false := by
          simp only [noMergeList, Bool.and_eq_true, Bool.not_eq_true'] at hnm
          exact hnm.1
        rw [mergeHazard, hc] at hmh
        simp only [Option.any_some] at hmh
        rw [opLexRender_cons]
        cases hc2 : lx2.chars with
        | nil => exact absurd hc2 (opLex_chars_ne_nil lx2)
        | cons d tail =>
          rw [hc2] at hmh
          simp only [List.head?_cons, Option.any_some] at hmh
          simp only [hc2, List.cons_append, List.head?_cons, Option.any_some]
          exact hmh
    have hrt := @readToken_opLex lx st (opLexRender L) hdrop (by omega) hsafe
    have step : readTokensLoop (f + 1) st acc =
        readTokensLoop f ⟨st.source, st.line, st.current + lx.chars.length⟩
          (acc ++ [lx.token]) := by
      rw [readTokensLoop, hrt]
      simp [hend]
    rw [step, ih f ⟨st.source, st.line, st.current + lx.chars.length⟩ (acc ++ [lx.token])
      (drop_append_of_drop hdrop)
      (show byteLen st.source = st.current + lx.chars.length + (opLexRender L).length by omega)
      hnmtail
      (by simp only [List.length_cons] at hfuel; omega)]
    simp

theorem scanner_opLexemes (L : List OpLex) (hnm : noMergeList L = true) :
    Scanner.readTokens (opLexRender L) = .ok (L.map OpLex.token ++ [Token.eof]) ∧
    (L.map OpLex.token ++ [Token.eof]).length = L.length + 1 := by
  refine ⟨?_, by simp⟩
  have hbl : byteLen (opLexRender L) = (opLexRender L).length :=
    byteLen_eq_length _ (opLexRender_single L)
  have hfuel : L.length + 1 ≤ byteLen (opLexRender L) + 1 := by
    have := opLexRender_length_ge L
    omega
  have hloop := readTokensLoop_opLex L (byteLen (opLexRender L) + 1)
    ⟨opLexRender L, 1, 0⟩ [] (by simp) (by simpa using hbl) hnm hfuel
  rw [Scanner.readTokens, hloop]
  simp

/-- C3 counterexample: the claim extends the End-Of-Input invariant to the
duplicate tokenizer (`Lexer` in `src/main.rs`), but `Lexer::read_tokens`
never pushes `Token::Eof`: on the input `42` it succeeds with
`[Number(42)]`, which contains no `Eof` and whose last element is not
`Eof`. -/
theorem c3_lexer_no_eof_counterexample :
    Lexer.readTokens ['4', '2'] = .ok [Token.number "42"] ∧
    [Token.number "42"].count Token.eof = 0 ∧
    [Token.number "42"].getLast? ≠ some Token.eof := by
  refine ⟨rfl, by decide, by decide⟩

/-- C3 amended: every token sequence successfully returned by
`Scanner::read_tokens` contains exactly one End-Of-Input token and it is
the last element (`read_token` can never produce `Eof`, and the final
`push` adds exactly one); in particular, for every input composed only
of recognized single/double-character lexemes — with no two adjacent
lexemes merging under maximal munch (e.g. `=` before `=`, or `/` before
`/`) — `Scanner::read_tokens` succeeds with exactly the lexemes' tokens
followed by `Eof`, a sequence whose length is the number of lexemes
plus one.  The duplicate `Lexer::read_tokens` of `src/main.rs`, by
contrast, appends no `Eof`, so its successful results contain no `Eof`
at all. -/
theorem c3_eof_invariant_amended :
    (∀ (src : List Char) (ts : List Token),
      Scanner.readTokens src = .ok ts →
      ts.count Token.eof = 1 ∧ ts.getLast? = some Token.eof) ∧
    (∀ L : List OpLex, noMergeList L = true →
      Scanner.readTokens (opLexRender L) = .ok (L.map OpLex.token ++ [Token.eof]) ∧
      (L.map OpLex.token ++ [Token.eof]).length = L.length + 1) ∧
    (∀ (src : List Char) (ts : List Token),
      Lexer.readTokens src = .ok ts → Token.eof ∉ ts) := by
  refine ⟨?_, fun L hnm => scanner_opLexemes L hnm, ?_⟩
  · intro src ts h
    unfold Scanner.readTokens at h
    cases hl : readTokensLoop (byteLen src + 1) ⟨src, 1, 0⟩ [] with
    | ok ts' =>
      rw [hl] at h
      obtain rfl : ts' ++ [Token.eof] = ts := by simpa using h
      have hne := readTokensLoop_no_eof _ _ _ _ hl (by simp)
      have hcount : ts'.count Token.eof = 0 := by
        rw [List.count_eq_zero]
        intro hmem
        exact hne _ hmem rfl
      refine ⟨?_, ?_⟩
      · rw [List.count_append, hcount]
        simp
      · simp [List.getLast?_concat]
    | err e => rw [hl] at h; exact ScanRes.noConfusion h
    | panic => rw [hl] at h; exact ScanRes.noConfusion h
    | fuelOut => rw [hl] at h; exact ScanRes.noConfusion h
  · intro src ts h hmem
    unfold Lexer.readTokens at h
    exact readTokensLoop_no_eof _ _ _ _ h (by simp) _ hmem rfl

/-- C3 witness: the amended theorem applied to the concrete source `42`
for both implementations, and its lexeme conjunct applied to the
three-lexeme sequence `+` `-` `==`. -/
theorem c3_eof_invariant_amended_witness :
    ([Token.number "42", Token.eof].count Token.eof = 1 ∧
      [Token.number "42", Token.eof].getLast? = some Token.eof) ∧
    (Scanner.readTokens (opLexRender [OpLex.plus, OpLex.minus, OpLex.eqEq]) =
        .ok ([OpLex.plus, OpLex.minus, OpLex.eqEq].map OpLex.token ++ [Token.eof]) ∧
      ([OpLex.plus, OpLex.minus, OpLex.eqEq].map OpLex.token ++ [Token.eof]).length =
        [OpLex.plus, OpLex.minus, OpLex.eqEq].length + 1) ∧
    Token.eof ∉ [Token.number "42"] :=
  ⟨c3_eof_invariant_amended.1 ['4', '2'] [Token.number "42", Token.eof] rfl,
   c3_eof_invariant_amended.2.1 [OpLex.plus, OpLex.minus, OpLex.eqEq] (by decide),
   c3_eof_invariant_amended.2.2 ['4', '2'] [Token.number "42"] rfl⟩

theorem scanner_unterminated (rest : List Char) (hq : '"' ∉ rest)
    (hsz : ∀ c ∈ rest, c.utf8Size = 1) :
    Scanner.readTokens ('"' :: rest) = .err ⟨'"' :: rest, "Unterminated string"⟩ := by
  have hbl : byteLen ('"' :: rest) = rest.length + 1 := by
    rw [byteLen_cons, byteLen_eq_length rest hsz,
      show Char.utf8Size '"' = 1 from by decide]
    omega
  have hsl : Scanner.stringLit ⟨'"' :: rest, 1, 1⟩ =
      .err ⟨'"' :: rest, "Unterminated string"⟩ := by
    unfold Scanner.stringLit
    exact stringLitLoop_unterminated rest _ ⟨'"' :: rest, 1, 1⟩ ""
      (by simp)
      (show byteLen ('"' :: rest) = 1 + rest.length by rw [hbl]; omega)
      hq
      (show rest.length < byteLen ('"' :: rest) + 1 by rw [hbl]; omega)
  have hrt : readToken ⟨'"' :: rest, 1, 0⟩ = .err ⟨'"' :: rest, "Unterminated string"⟩ := by
    rw [readToken_quote (by rfl)]
    rw [show ({ (⟨'"' :: rest, 1, 0⟩ : Scanner) with current := 0 + 1 } : Scanner) =
      ⟨'"' :: rest, 1, 1⟩ from rfl, hsl]
  have hend0 : (⟨'"' :: rest, 1, 0⟩ : Scanner).isAtEnd = false := by
    simp only [Scanner.isAtEnd, decide_eq_false_iff_not, Nat.not_le]
    omega
  unfold Scanner.readTokens
  rw [readTokensLoop]
  simp only [hend0, Bool.not_false, if_true, hrt]

theorem scanner_closed_string (body : List Char) (hq : '"' ∉ body)
    (hsz : ∀ c ∈ body, c.utf8Size = 1) :
    Scanner.readTokens ('"' :: body ++ ['"']) = .ok [Token.string_ ⟨body⟩, Token.eof] := by
  have hbl : byteLen ('"' :: body ++ ['"']) = body.length + 2 := by
    rw [byteLen_append, byteLen_cons, byteLen_eq_length body hsz]
    rw [show Char.utf8Size '"' = 1 from by decide,
      show byteLen ['"'] = 1 from by decide]
    omega
  obtain ⟨ln, hsl⟩ := stringLitLoop_closed body
      (byteLen (('"' :: body ++ ['"'] : List Char)) + 1) ⟨'"' :: body ++ ['"'], 1, 1⟩ "" []
      (by simp)
      (show 1 + body.length < byteLen ('"' :: body ++ ['"']) by rw [hbl]; omega)
      hq
      (show body.length < byteLen ('"' :: body ++ ['"']) + 1 by rw [hbl]; omega)
  have hstr : Scanner.stringLit ⟨'"' :: body ++ ['"'], 1, 1⟩ =
      .ok (⟨body⟩, ⟨'"' :: body ++ ['"'], ln, body.length + 2⟩) := by
    unfold Scanner.stringLit
    rw [hsl]
    simp [show (1 : Nat) + body.length + 1 = body.length + 2 from by omega]
  have hrt : readToken ⟨'"' :: body ++ ['"'], 1, 0⟩ =
      .ok (some (Token.string_ ⟨body⟩), ⟨'"' :: body ++ ['"'], ln, body.length + 2⟩) := by
    rw [readToken_quote (by rfl)]
    rw [show ({ (⟨'"' :: body ++ ['"'], 1, 0⟩ : Scanner) with current := 0 + 1 } : Scanner) =
      ⟨'"' :: body ++ ['"'], 1, 1⟩ from rfl, hstr]
  have hend0 : (⟨'"' :: body ++ ['"'], 1, 0⟩ : Scanner).isAtEnd = false := by
    simp only [Scanner.isAtEnd, decide_eq_false_iff_not, Nat.not_le]
    omega
  have hend2 : (⟨'"' :: body ++ ['"'], ln, body.length + 2⟩ : Scanner).isAtEnd = true := by
    simp only [Scanner.isAtEnd, decide_eq_true_eq]
    rw [show byteLen ((⟨'"' :: body ++ ['"'], ln, body.length + 2⟩ : Scanner).source) =
      body.length + 2 from hbl]
  unfold Scanner.readTokens
  rw [hbl, readTokensLoop]
  simp only [hend0, Bool.not_false, if_true, hrt]
  rw [readTokensLoop]
  simp only [hend2, Bool.not_true, Bool.false_eq_true, if_false]
  rfl

theorem readToken_comment_skips (ln : Nat) (body rest : List Char)
    (hmem : '\n' ∉ body) (hsz : ∀ c ∈ body, c.utf8Size = 1) :
    readToken ⟨'/' :: '/' :: body ++ '\n' :: rest, ln, 0⟩ =
      .ok (none, ⟨'/' :: '/' :: body ++ '\n' :: rest, ln, body.length + 2⟩) := by
  have hbl : byteLen ('/' :: '/' :: body ++ '\n' :: rest) =
      body.length + byteLen rest + 3 := by
    rw [byteLen_append, byteLen_cons, byteLen_cons, byteLen_eq_length body hsz, byteLen_cons]
    rw [show Char.utf8Size '/' = 1 from by decide, show Char.utf8Size '\n' = 1 from by decide]
    omega
  have hcm : Scanner.comment ⟨'/' :: '/' :: body ++ '\n' :: rest, ln, 0 + 2⟩ =
      .ok ⟨'/' :: '/' :: body ++ '\n' :: rest, ln, body.length + 2⟩ := by
    unfold Scanner.comment
    rw [commentLoop_stops body _ _ ('\n' :: rest)
      (by simp)
      (Or.inl rfl)
      (show 0 + 2 + body.length ≤ byteLen ('/' :: '/' :: body ++ '\n' :: rest) by
        rw [hbl]; omega)
      hmem
      (show body.length < byteLen ('/' :: '/' :: body ++ '\n' :: rest) + 1 by
        rw [hbl]; omega)]
    simp [show 0 + 2 + body.length = body.length + 2 from by omega]
  rw [@readToken_comment ⟨'/' :: '/' :: body ++ '\n' :: rest, ln, 0⟩ rfl rfl
    (show 0 + 1 < byteLen ('/' :: '/' :: body ++ '\n' :: rest) by rw [hbl]; omega)]
  rw [show ({ (⟨'/' :: '/' :: body ++ '\n' :: rest, ln, 0⟩ : Scanner) with
      current := 0 + 2 } : Scanner) =
    ⟨'/' :: '/' :: body ++ '\n' :: rest, ln, 0 + 2⟩ from rfl, hcm]

theorem readToken_comment_eoi (ln : Nat) (body : List Char)
    (hmem : '\n' ∉ body) (hsz : ∀ c ∈ body, c.utf8Size = 1) :
    readToken ⟨'/' :: '/' :: body, ln, 0⟩ =
      .ok (none, ⟨'/' :: '/' :: body, ln, body.length + 2⟩) := by
  have hbl : byteLen ('/' :: '/' :: body) = body.length + 2 := by
    rw [byteLen_cons, byteLen_cons, byteLen_eq_length body hsz]
    rw [show Char.utf8Size '/' = 1 from by decide]
    omega
  have hcm : Scanner.comment ⟨'/' :: '/' :: body, ln, 0 + 2⟩ =
      .ok ⟨'/' :: '/' :: body, ln, body.length + 2⟩ := by
    unfold Scanner.comment
    rw [commentLoop_stops body _ _ []
      (by simp)
      (Or.inr ⟨rfl, show byteLen ('/' :: '/' :: body) = 0 + 2 + body.length by
        rw [hbl]; omega⟩)
      (show 0 + 2 + body.length ≤ byteLen ('/' :: '/' :: body) by rw [hbl]; omega)
      hmem
      (show body.length < byteLen ('/' :: '/' :: body) + 1 by rw [hbl]; omega)]
    simp [show 0 + 2 + body.length = body.length + 2 from by omega]
  rw [@readToken_comment ⟨'/' :: '/' :: body, ln, 0⟩ rfl rfl
    (show 0 + 1 < byteLen ('/' :: '/' :: body) by rw [hbl]; omega)]
  rw [show ({ (⟨'/' :: '/' :: body, ln, 0⟩ : Scanner) with current := 0 + 2 } : Scanner) =
    ⟨'/' :: '/' :: body, ln, 0 + 2⟩ from rfl, hcm]

/-- C5 counterexample: the claim says every input containing an
unterminated string literal fails with an "unterminated string" lex
error and returns no token sequence.  On the unterminated literal `"é`
(é is 2 UTF-8 bytes) the scanner instead panics: `string_lit`'s loop
guard compares the char cursor with the byte length, walks past the last
character, and `advance`'s `expect` fires — the result is neither an
error nor a token sequence, but an abrupt termination. -/
theorem c5_multibyte_unterminated_panics :
    Scanner.readTokens ['"', 'é'] = .panic ∧
    (∀ e : Error, (ScanRes.panic : ScanRes (List Token)) ≠ .err e) ∧
    (∀ ts : List Token, (ScanRes.panic : ScanRes (List Token)) ≠ .ok ts) :=
  ⟨rfl, fun _ => by simp, fun _ => by simp⟩

/-- C5 amended: restricted to string-literal bodies of single-byte
characters (where the byte-length/char-index confusion of C4 cannot
strike), the claim holds: a literal opened by `"` that reaches
end-of-input without a closing quote makes the whole scan fail with the
"Unterminated string" error carrying the source text, and no token
sequence is returned; when the closing quote is present it is consumed
and excluded — the scan returns exactly the string token of the body
plus `Eof`. -/
theorem c5_unterminated_string_amended :
    (∀ rest : List Char, '"' ∉ rest → (∀ c ∈ rest, c.utf8Size = 1) →
      Scanner.readTokens ('"' :: rest) = .err ⟨'"' :: rest, "Unterminated string"⟩) ∧
    (∀ body : List Char, '"' ∉ body → (∀ c ∈ body, c.utf8Size = 1) →
      Scanner.readTokens ('"' :: body ++ ['"']) = .ok [Token.string_ ⟨body⟩, Token.eof]) :=
  ⟨scanner_unterminated, scanner_closed_string⟩

/-- C5 witness: the amended theorem applied to the concrete inputs
`"abc` (unterminated) and `"hi"` (terminated). -/
theorem c5_unterminated_string_amended_witness :
    Scanner.readTokens ['"', 'a', 'b', 'c'] =
      .err ⟨['"', 'a', 'b', 'c'], "Unterminated string"⟩ ∧
    Scanner.readTokens ['"', 'h', 'i', '"'] = .ok [Token.string_ "hi", Token.eof] :=
  ⟨c5_unterminated_string_amended.1 ['a', 'b', 'c'] (by decide) (by decide),
   c5_unterminated_string_amended.2 ['h', 'i'] (by decide) (by decide)⟩

/-- C8 counterexample: the claim's general clause says a comment's
characters are discarded producing no token for every comment body, but
on the comment body `ß` (a 2-byte character) the scanner panics — the
C4 byte/char cursor bug — instead of discarding the body: the result of
`Scanner::read_tokens` on `//ß` is the panic outcome, which is neither
a token sequence nor a lex error. -/
theorem c8_multibyte_comment_panics :
    Scanner.readTokens ['/', '/', 'ß'] = .panic ∧
    (∀ ts : List Token, (ScanRes.panic : ScanRes (List Token)) ≠ .ok ts) ∧
    (∀ e : Error, (ScanRes.panic : ScanRes (List Token)) ≠ .err e) :=
  ⟨rfl, fun _ => fun h => ScanRes.noConfusion h, fun _ => fun h => ScanRes.noConfusion h⟩

/-- C8 amended: scanning the line comment input (two slashes, the text
` comment`, a newline, then `42`) yields exactly `[Number(42), Eof]`;
and for comment bodies made of single-byte characters, two consecutive
slashes begin a comment and every character up to but not including the
next newline (or up to end-of-input) is discarded producing no token:
`read_token` returns no token and leaves the cursor on the newline
(respectively at the input's end), with the line counter untouched.
The single-byte restriction is required: a multi-byte comment body
instead triggers the C4 byte/char cursor panic (see the counterexample
above). -/
theorem c8_comment_elision :
    Scanner.readTokens "// comment\n42".toList = .ok [Token.number "42", Token.eof] ∧
    (∀ (ln : Nat) (body rest : List Char), '\n' ∉ body → (∀ c ∈ body, c.utf8Size = 1) →
      readToken ⟨'/' :: '/' :: body ++ '\n' :: rest, ln, 0⟩ =
        .ok (none, ⟨'/' :: '/' :: body ++ '\n' :: rest, ln, body.length + 2⟩)) ∧
    (∀ (ln : Nat) (body : List Char), '\n' ∉ body → (∀ c ∈ body, c.utf8Size = 1) →
      readToken ⟨'/' :: '/' :: body, ln, 0⟩ =
        .ok (none, ⟨'/' :: '/' :: body, ln, body.length + 2⟩)) :=
  ⟨by decide, readToken_comment_skips, readToken_comment_eoi⟩

/-- C8 witness: the general comment conjuncts applied to the concrete
inputs `//x` + newline + `4`, and `//y`. -/
theorem c8_comment_elision_witness :
    readToken ⟨['/', '/', 'x', '\n', '4'], 1, 0⟩ =
      .ok (none, ⟨['/', '/', 'x', '\n', '4'], 1, 3⟩) ∧
    readToken ⟨['/', '/', 'y'], 7, 0⟩ = .ok (none, ⟨['/', '/', 'y'], 7, 3⟩) :=
  ⟨c8_comment_elision.2.1 1 ['x'] ['4'] (by decide) (by decide),
   c8_comment_elision.2.2 7 ['y'] (by decide) (by decide)⟩






theorem minusChain_length (l : List String) :
    (minusChainToks l).length = 2 * l.length + 1 := by
  induction l with
  | nil => rfl
  | cons b l ih => simp [minusChainToks, ih]; omega

theorem minusChain_drop (l : List String) :
    (minusChainToks l).drop (2 * l.length) = [Token.eof] := by
  induction l with
  | nil => rfl
  | cons b l ih =>
    have h2 : 2 * (b :: l).length = 2 * l.length + 1 + 1 := by simp; omega
    rw [h2]
    simpa [minusChainToks] using ih

theorem parsePrimaryAux_number {pexp : PState → PRes} {toks : List Token} {cur : Nat}
    {b : String} (h : toks.get? cur = some (Token.number b)) :
    parsePrimaryAux pexp ⟨toks, cur⟩ = .ok (.literal (.number b)) ⟨toks, cur + 1⟩ := by
  simp [parsePrimaryAux, matchAny, matchNumber, PState.isAtEnd, PState.peek, PState.advance,
    PState.previous, getElem?_eq h, Token.isEof]

theorem parseFactorAux_number {pexp : PState → PRes} {toks : List Token} {cur f : Nat}
    {b : String} {nt : Token}
    (h : toks.get? cur = some (Token.number b))
    (hnx : toks.get? (cur + 1) = some nt)
    (hns : (nt == Token.slash) = false) (hnst : (nt == Token.star) = false) :
    parseFactorAux pexp (f + 1) ⟨toks, cur⟩ = .ok (.literal (.number b)) ⟨toks, cur + 1⟩ := by
  unfold parseFactorAux parseBinLevel
  simp only [parseUnaryAux,
    show matchAny [Token.not_, Token.minus] ⟨toks, cur⟩ = (false, ⟨toks, cur⟩) from by
      simp [matchAny, PState.isAtEnd, PState.peek, getElem?_eq h, Token.isEof],
    parsePrimaryAux_number h, binLoop,
    show matchAny [Token.slash, Token.star] ⟨toks, cur + 1⟩ = (false, ⟨toks, cur + 1⟩) from by
      simp [matchAny, PState.isAtEnd, PState.peek, getElem?_eq hnx, Token.isEof, hns, hnst]]

theorem termLoop_minusChain {pexp : PState → PRes} :
    ∀ (l : List String) (fl ff : Nat) (e : Expr) (toks : List Token) (cur : Nat),
      toks.drop cur = minusChainToks l →
      l.length ≤ fl →
      binLoop (parseFactorAux pexp (ff + 1)) [.plus, .minus] (fl + 1) e ⟨toks, cur⟩ =
        .ok (leftFold e l) ⟨toks, cur + 2 * l.length⟩ := by
  intro l
  induction l with
  | nil =>
    intro fl ff e toks cur hdrop _
    have hpk : toks.get? cur = some Token.eof := get?_of_drop hdrop
    rw [binLoop]
    rw [show matchAny [Token.plus, Token.minus] ⟨toks, cur⟩ = (false, ⟨toks, cur⟩) from by
      simp [matchAny, PState.isAtEnd, PState.peek, getElem?_eq hpk, Token.isEof]]
    simp [leftFold]
  | cons b l' ih =>
    intro fl ff e toks cur hdrop hfl
    obtain ⟨fl', rfl⟩ : ∃ g, fl = g + 1 := ⟨fl - 1, by simp at hfl; omega⟩
    have hpk : toks.get? cur = some Token.minus := get?_of_drop hdrop
    have hdrop1 : toks.drop (cur + 1) = Token.number b :: minusChainToks l' :=
      drop_succ_of_drop hdrop
    have hnum : toks.get? (cur + 1) = some (Token.number b) := get?_of_drop hdrop1
    have hdrop2 : toks.drop (cur + 1 + 1) = minusChainToks l' := drop_succ_of_drop hdrop1
    have hstep : parseFactorAux pexp (ff + 1) ⟨toks, cur + 1⟩ =
        .ok (.literal (.number b)) ⟨toks, cur + 1 + 1⟩ := by
      cases l' with
      | nil =>
        exact parseFactorAux_number hnum (get?_of_drop hdrop2) (by decide) (by decide)
      | cons b2 l'' =>
        exact parseFactorAux_number hnum (get?_of_drop hdrop2) (by decide) (by decide)
    rw [binLoop]
    simp only [
      show matchAny [Token.plus, Token.minus] ⟨toks, cur⟩ = (true, ⟨toks, cur + 1⟩) from by
        simp [matchAny, PState.isAtEnd, PState.peek, PState.advance, getElem?_eq hpk,
          Token.isEof],
      show (⟨toks, cur + 1⟩ : PState).previous = some Token.minus from by
        simp [PState.previous, getElem?_eq hpk],
      hstep]
    rw [ih fl' ff (.binary e Token.minus (.literal (.number b))) toks (cur + 1 + 1) hdrop2
      (by simp at hfl; omega)]
    have harith : cur + 1 + 1 + 2 * l'.length = cur + 2 * (b :: l').length := by
      simp; omega
    rw [harith]
    rfl

theorem parseExpression_minusChain {toks : List Token} {cur : Nat} {a : String}
    {l : List String} (f : Nat)
    (hdrop : toks.drop cur = Token.number a :: minusChainToks l)
    (hf : l.length + 3 ≤ f) :
    parseExpression f ⟨toks, cur⟩ =
      .ok (leftFold (.literal (.number a)) l) ⟨toks, cur + 1 + 2 * l.length⟩ := by
  obtain ⟨g, rfl⟩ : ∃ g, f = g + 1 := ⟨f - 1, by omega⟩
  obtain ⟨g', rfl⟩ : ∃ g2, g = g2 + 1 := ⟨g - 1, by omega⟩
  have hnum : toks.get? cur = some (Token.number a) := get?_of_drop hdrop
  have hdrop1 : toks.drop (cur + 1) = minusChainToks l := drop_succ_of_drop hdrop
  have hfac : parseFactorAux (parseExpression (g' + 1)) (g' + 1) ⟨toks, cur⟩ =
      .ok (.literal (.number a)) ⟨toks, cur + 1⟩ := by
    cases l with
    | nil => exact parseFactorAux_number hnum (get?_of_drop hdrop1) (by decide) (by decide)
    | cons b l' => exact parseFactorAux_number hnum (get?_of_drop hdrop1) (by decide) (by decide)
  have hterm : parseTermAux (parseExpression (g' + 1)) (g' + 1) ⟨toks, cur⟩ =
      .ok (leftFold (.literal (.number a)) l) ⟨toks, cur + 1 + 2 * l.length⟩ := by
    unfold parseTermAux parseBinLevel
    simp only [hfac]
    exact termLoop_minusChain l g' g' (.literal (.number a)) toks (cur + 1) hdrop1
      (by omega)
  have hdropE : toks.drop (cur + 1 + 2 * l.length) = [Token.eof] := by
    rw [← List.drop_drop, hdrop1, minusChain_drop]
  have hpeekE : toks.get? (cur + 1 + 2 * l.length) = some Token.eof := get?_of_drop hdropE
  have hnomatch : ∀ ops : List Token,
      matchAny ops ⟨toks, cur + 1 + 2 * l.length⟩ =
        (false, ⟨toks, cur + 1 + 2 * l.length⟩) := by
    intro ops
    induction ops with
    | nil => rfl
    | cons t ops ih =>
      simp [matchAny, PState.isAtEnd, PState.peek, getElem?_eq hpeekE, Token.isEof, ih]
  have hcmp : parseComparisonAux (parseExpression (g' + 1)) (g' + 1) ⟨toks, cur⟩ =
      .ok (leftFold (.literal (.number a)) l) ⟨toks, cur + 1 + 2 * l.length⟩ := by
    unfold parseComparisonAux parseBinLevel
    simp only [hterm]
    rw [binLoop, hnomatch]
  have heql : parseEqualityAux (parseExpression (g' + 1)) (g' + 1) ⟨toks, cur⟩ =
      .ok (leftFold (.literal (.number a)) l) ⟨toks, cur + 1 + 2 * l.length⟩ := by
    unfold parseEqualityAux parseBinLevel
    simp only [hcmp]
    rw [binLoop, hnomatch]
  rw [parseExpression]
  exact heql

theorem parse_minusChain (a : String) (l : List String) :
    Parser.parse (Token.number a :: minusChainToks l) =
      .ok (leftFold (.literal (.number a)) l)
        ⟨Token.number a :: minusChainToks l, 2 * l.length + 1⟩ := by
  unfold Parser.parse
  rw [@parseExpression_minusChain (Token.number a :: minusChainToks l) 0 a l
    ((Token.number a :: minusChainToks l).length + 2)
    rfl (by simp [minusChain_length]; omega)]
  rw [show 0 + 1 + 2 * l.length = 2 * l.length + 1 from by omega]

/-- C2: parsing `[Number(6), Slash, Number(3), Minus, Number(1), Eof]`
yields exactly `Binary(Binary(Literal(6), Slash, Literal(3)), Minus,
Literal(1))` and `1 - 2 - 3` parses as the left-fold
`Binary(Binary(Literal(1), Minus, Literal(2)), Minus, Literal(3))`;
`/` binds tighter than `-` for arbitrary number payloads, and — fully
generally — a chain `a - b₁ - ⋯ - bₖ` of any length left-folds:
`parse` returns `leftFold` of the operands with the cursor on the final
`Eof`. -/
theorem c2_precedence_left_assoc :
    Parser.parse [Token.number "6", Token.slash, Token.number "3", Token.minus,
        Token.number "1", Token.eof] =
      .ok (.binary (.binary (.literal (.number "6")) Token.slash (.literal (.number "3")))
            Token.minus (.literal (.number "1")))
        ⟨[Token.number "6", Token.slash, Token.number "3", Token.minus, Token.number "1",
          Token.eof], 5⟩ ∧
    Parser.parse [Token.number "1", Token.minus, Token.number "2", Token.minus,
        Token.number "3", Token.eof] =
      .ok (.binary (.binary (.literal (.number "1")) Token.minus (.literal (.number "2")))
            Token.minus (.literal (.number "3")))
        ⟨[Token.number "1", Token.minus, Token.number "2", Token.minus, Token.number "3",
          Token.eof], 5⟩ ∧
    (∀ a b c : String,
      Parser.parse [Token.number a, Token.slash, Token.number b, Token.minus,
          Token.number c, Token.eof] =
        .ok (.binary (.binary (.literal (.number a)) Token.slash (.literal (.number b)))
              Token.minus (.literal (.number c)))
          ⟨[Token.number a, Token.slash, Token.number b, Token.minus, Token.number c,
            Token.eof], 5⟩) ∧
    ∀ (a : String) (l : List String),
      Parser.parse (Token.number a :: minusChainToks l) =
        .ok (leftFold (.literal (.number a)) l)
          ⟨Token.number a :: minusChainToks l, 2 * l.length + 1⟩ :=
  ⟨rfl, rfl, fun _ _ _ => rfl, parse_minusChain⟩





theorem advance_tokens (st : PState) : st.advance.tokens = st.tokens := by
  unfold PState.advance; split <;> rfl

theorem wf_get_last {toks : List Token} (h : WFToks toks) :
    toks.get? (toks.length - 1) = some Token.eof := by
  rw [← List.getLast?_eq_get?]; exact h.1

theorem wf_ne_nil {toks : List Token} (h : WFToks toks) : toks ≠ [] := by
  intro hnil
  rw [hnil] at h
  simp [WFToks] at h

theorem advance_le {st : PState} (hwf : WFToks st.tokens)
    (h : st.current ≤ st.tokens.length - 1) :
    st.advance.current ≤ st.tokens.length - 1 := by
  unfold PState.advance
  split
  · rename_i hend
    simp only [Bool.not_eq_true'] at hend
    have hne : st.current ≠ st.tokens.length - 1 := by
      intro hcur
      rw [PState.isAtEnd, PState.peek, hcur, wf_get_last hwf] at hend
      simp [Token.isEof] at hend
    simp only []
    omega
  · exact h

theorem matchAny_false_state : ∀ {ops : List Token} {st st' : PState},
    matchAny ops st = (false, st') → st' = st := by
  intro ops
  induction ops with
  | nil =>
    intro st st' h
    simp [matchAny] at h
    exact h.symm
  | cons t ops ih =>
    intro st st' h
    unfold matchAny at h
    split at h
    · simp at h
    · exact ih h

theorem matchAny_true_state : ∀ {ops : List Token} {st st' : PState},
    matchAny ops st = (true, st') → st' = st.advance ∧ st.isAtEnd = false := by
  intro ops
  induction ops with
  | nil =>
    intro st st' h
    simp [matchAny] at h
  | cons t ops ih =>
    intro st st' h
    unfold matchAny at h
    split at h
    · rename_i hcond
      simp only [Bool.and_eq_true, Bool.not_eq_true'] at hcond
      obtain ⟨h1, h2⟩ : true = true ∧ st.advance = st' := by simpa using h
      exact ⟨h2.symm, hcond.1⟩
    · exact ih h

theorem matchAny_true_prev : ∀ {ops : List Token} {st st' : PState},
    matchAny ops st = (true, st') →
    st'.previous = st.peek ∧ st.peek.isSome = true ∧
      ∃ t ∈ ops, (st.peek.any fun x => x == t) = true := by
  intro ops
  induction ops with
  | nil =>
    intro st st' h
    simp [matchAny] at h
  | cons t ops ih =>
    intro st st' h
    unfold matchAny at h
    split at h
    · rename_i hcond
      simp only [Bool.and_eq_true, Bool.not_eq_true'] at hcond
      obtain ⟨-, h2⟩ : true = true ∧ st.advance = st' := by simpa using h
      have hsome : st.peek.isSome = true := by
        rcases hp : st.peek with - | u
        · rw [PState.isAtEnd, hp] at hcond
          simp at hcond
        · rfl
      have hadv : st' = { st with current := st.current + 1 } := by
        rw [← h2]
        unfold PState.advance
        rw [hcond.1]
        rfl
      refine ⟨?_, hsome, t, by simp, hcond.2⟩
      rw [hadv]
      simp [PState.previous, PState.peek]
    · obtain ⟨hp, hs, u, hu, hb⟩ := ih h
      exact ⟨hp, hs, u, by simp [hu], hb⟩

theorem matchNumber_state {st : PState} {b : Bool} {st' : PState}
    (h : matchNumber st = (b, st')) : st' = st ∨ st' = st.advance := by
  unfold matchNumber at h
  split at h
  · right; exact (by simpa using h : true = b ∧ st.advance = st').2.symm
  · left; exact (by simpa using h : false = b ∧ st = st').2.symm

theorem matchString_state {st : PState} {b : Bool} {st' : PState}
    (h : matchString st = (b, st')) : st' = st ∨ st' = st.advance := by
  unfold matchString at h
  split at h
  · right; exact (by simpa using h : true = b ∧ st.advance = st').2.symm
  · left; exact (by simpa using h : false = b ∧ st = st').2.symm

theorem step_le {st st' : PState} (hwf : WFToks st.tokens)
    (hc : st.current ≤ st.tokens.length - 1) (hs : st' = st ∨ st' = st.advance) :
    st'.tokens = st.tokens ∧ st'.current ≤ st.tokens.length - 1 := by
  rcases hs with rfl | rfl
  · exact ⟨rfl, hc⟩
  · exact ⟨advance_tokens st, advance_le hwf hc⟩

theorem binLoop_pres : ∀ (fuel : Nat) (pnext : PState → PRes) (ops : List Token),
    Preserves pnext → ∀ e : Expr, Preserves (binLoop pnext ops fuel e) := by
  intro fuel
  induction fuel with
  | zero =>
    intro pnext ops hp e st r st' _ _ h
    exact absurd h (by simp [binLoop])
  | succ f ih =>
    intro pnext ops hp e st r st' hwf hc h
    rw [binLoop] at h
    rcases hm : matchAny ops st with ⟨b, st₁⟩
    rw [hm] at h
    cases b with
    | false =>
      obtain rfl := matchAny_false_state hm
      obtain ⟨-, rfl⟩ : e = r ∧ st₁ = st' := by simpa using h
      exact ⟨rfl, hc⟩
    | true =>
      obtain ⟨rfl, -⟩ := matchAny_true_state hm
      replace h : (match st.advance.previous with
          | some op =>
            match pnext st.advance with
            | .ok rhs st₂ => binLoop pnext ops f (.binary e op rhs) st₂
            | .panic m => .panic m
            | .fuelOut => .fuelOut
          | none => .panic unwrapMsg) = .ok r st' := h
      cases hprev : st.advance.previous with
      | none => rw [hprev] at h; exact PRes.noConfusion h
      | some op =>
        rw [hprev] at h
        cases hn : pnext st.advance with
        | ok rhs st₂ =>
          rw [hn] at h
          have hwfa : WFToks st.advance.tokens := by rw [advance_tokens]; exact hwf
          have hb := hp st.advance rhs st₂ hwfa
            (by rw [advance_tokens]; exact advance_le hwf hc) hn
          rw [advance_tokens] at hb
          have := ih pnext ops hp (.binary e op rhs) st₂ r st'
            (by rw [hb.1]; exact hwf) (by rw [hb.1]; exact hb.2) h
          rw [hb.1] at this
          exact this
        | panic m => rw [hn] at h; exact PRes.noConfusion h
        | fuelOut => rw [hn] at h; exact PRes.noConfusion h

theorem matchNumber_false_state {st : PState} {s2 : PState}
    (h : matchNumber st = (false, s2)) : s2 = st := by
  unfold matchNumber at h
  split at h
  · simp at h
  · exact ((by simpa using h : false = false ∧ st = s2).2).symm

theorem primary_matched_state {st : PState} {b : Bool} {st₁ : PState}
    (h : (match matchAny [Token.false_, Token.true_, Token.nil] st with
          | (true, st) => (true, st)
          | (false, st) =>
            match matchNumber st with
            | (true, st) => (true, st)
            | (false, st) => matchString st) = (b, st₁)) :
    st₁ = st ∨ st₁ = st.advance := by
  rcases hm1 : matchAny [Token.false_, Token.true_, Token.nil] st with ⟨b1, s1⟩
  rw [hm1] at h
  cases b1 with
  | true =>
    obtain ⟨-, h2⟩ : true = b ∧ s1 = st₁ := by simpa using h
    obtain ⟨hs1, -⟩ := matchAny_true_state hm1
    right
    rw [← h2, hs1]
  | false =>
    have hs1 := matchAny_false_state hm1
    replace h : (match matchNumber s1 with
        | (true, st) => (true, st)
        | (false, st) => matchString st) = (b, st₁) := h
    rw [hs1] at h
    rcases hm2 : matchNumber st with ⟨b2, s2⟩
    rw [hm2] at h
    cases b2 with
    | true =>
      obtain ⟨-, h2⟩ : true = b ∧ s2 = st₁ := by simpa using h
      rcases matchNumber_state hm2 with hh | hh
      · left; rw [← h2, hh]
      · right; rw [← h2, hh]
    | false =>
      replace h : matchString s2 = (b, st₁) := h
      rw [matchNumber_false_state hm2] at h
      exact matchString_state h

theorem advance_bounds {st : PState} {toks : List Token} (hwf : WFToks toks)
    (ht : st.tokens = toks) (hc : st.current ≤ toks.length - 1) :
    st.advance.tokens = toks ∧ st.advance.current ≤ toks.length - 1 := by
  constructor
  · rw [advance_tokens, ht]
  · have h1 : st.current ≤ st.tokens.length - 1 := by rw [ht]; exact hc
    have h2 := advance_le (by rw [ht]; exact hwf) h1
    rwa [ht] at h2

theorem parsePrimaryAux_pres (pexp : PState → PRes) (hp : Preserves pexp) :
    Preserves (parsePrimaryAux pexp) := by
  intro st e st' hwf hc h
  unfold parsePrimaryAux at h
  rcases hm : (match matchAny [Token.false_, Token.true_, Token.nil] st with
      | (true, st) => (true, st)
      | (false, st) =>
        match matchNumber st with
        | (true, st) => (true, st)
        | (false, st) => matchString st) with ⟨b, st₁⟩
  rw [hm] at h
  have hst₁ := primary_matched_state hm
  have hb₁ := step_le hwf hc hst₁
  cases b with
  | true =>
    replace h : (match st₁.previous with
        | some t => (PRes.ok (.literal t) st₁ : PRes)
        | none => .panic unwrapMsg) = .ok e st' := h
    cases hprev : st₁.previous with
    | none => rw [hprev] at h; exact PRes.noConfusion h
    | some t =>
      rw [hprev] at h
      obtain ⟨-, rfl⟩ : Expr.literal t = e ∧ st₁ = st' := by simpa using h
      exact hb₁
  | false =>
    replace h : (match matchAny [Token.leftParen] st₁ with
        | (true, st) =>
          match pexp st with
          | .ok e2 st =>
            (match matchAny [Token.rightParen] st with
             | (true, st) => PRes.ok (.grouping e2) st
             | (false, _) => .panic "Missing closing parenthesis")
          | .panic m => .panic m
          | .fuelOut => .fuelOut
        | (false, _) => .panic "Failed to parse primary expression") = .ok e st' := h
    rcases hg : matchAny [Token.leftParen] st₁ with ⟨bg, st₂⟩
    rw [hg] at h
    cases bg with
    | false => exact PRes.noConfusion h
    | true =>
      obtain ⟨hadv, -⟩ := matchAny_true_state hg
      have hb₂ : st₂.tokens = st.tokens ∧ st₂.current ≤ st.tokens.length - 1 := by
        rw [hadv]
        exact advance_bounds hwf hb₁.1 hb₁.2
      replace h : (match pexp st₂ with
          | .ok e2 st₃ =>
            (match matchAny [Token.rightParen] st₃ with
             | (true, st₄) => PRes.ok (.grouping e2) st₄
             | (false, _) => .panic "Missing closing parenthesis")
          | .panic m => .panic m
          | .fuelOut => .fuelOut) = .ok e st' := h
      cases hn : pexp st₂ with
      | ok e2 st₃ =>
        rw [hn] at h
        replace h : (match matchAny [Token.rightParen] st₃ with
             | (true, st₄) => PRes.ok (.grouping e2) st₄
             | (false, _) => .panic "Missing closing parenthesis") = .ok e st' := h
        have hb₃ := hp st₂ e2 st₃ (by rw [hb₂.1]; exact hwf) (by rw [hb₂.1]; exact hb₂.2) hn
        rw [hb₂.1] at hb₃
        rcases hr : matchAny [Token.rightParen] st₃ with ⟨br, st₄⟩
        rw [hr] at h
        cases br with
        | false => exact PRes.noConfusion h
        | true =>
          obtain ⟨hadv₄, -⟩ := matchAny_true_state hr
          obtain ⟨-, rfl⟩ : Expr.grouping e2 = e ∧ st₄ = st' := by simpa using h
          rw [hadv₄]
          exact advance_bounds hwf hb₃.1 hb₃.2
      | panic m => rw [hn] at h; exact PRes.noConfusion h
      | fuelOut => rw [hn] at h; exact PRes.noConfusion h

theorem parseUnaryAux_pres (pexp : PState → PRes) (hp : Preserves pexp) :
    ∀ fuel, Preserves (parseUnaryAux pexp fuel) := by
  intro fuel
  induction fuel with
  | zero =>
    intro st e st' _ _ h
    exact absurd h (by simp [parseUnaryAux])
  | succ f ih =>
    intro st e st' hwf hc h
    rw [parseUnaryAux] at h
    rcases hm : matchAny [Token.not_, Token.minus] st with ⟨b, st₁⟩
    rw [hm] at h
    cases b with
    | false =>
      replace h : parsePrimaryAux pexp st₁ = .ok e st' := h
      rw [matchAny_false_state hm] at h
      exact parsePrimaryAux_pres pexp hp st e st' hwf hc h
    | true =>
      obtain ⟨rfl, -⟩ := matchAny_true_state hm
      replace h : (match st.advance.previous with
          | some op =>
            match parseUnaryAux pexp f st.advance with
            | .ok rhs st₂ => (PRes.ok (.unary op rhs) st₂ : PRes)
            | .panic m => .panic m
            | .fuelOut => .fuelOut
          | none => .panic unwrapMsg) = .ok e st' := h
      cases hprev : st.advance.previous with
      | none => rw [hprev] at h; exact PRes.noConfusion h
      | some op =>
        rw [hprev] at h
        cases hn : parseUnaryAux pexp f st.advance with
        | ok rhs st₂ =>
          rw [hn] at h
          have hb := ih st.advance rhs st₂ (by rw [advance_tokens]; exact hwf)
            (by rw [advance_tokens]; exact advance_le hwf hc) hn
          rw [advance_tokens] at hb
          obtain ⟨-, rfl⟩ : Expr.unary op rhs = e ∧ st₂ = st' := by simpa using h
          exact hb
        | panic m => rw [hn] at h; exact PRes.noConfusion h
        | fuelOut => rw [hn] at h; exact PRes.noConfusion h

theorem parseBinLevel_pres (pnext : PState → PRes) (ops : List Token) (fuel : Nat)
    (hp : Preserves pnext) : Preserves (parseBinLevel pnext ops fuel) := by
  intro st e st' hwf hc h
  unfold parseBinLevel at h
  cases hn : pnext st with
  | ok e1 st₁ =>
    rw [hn] at h
    have hb := hp st e1 st₁ hwf hc hn
    have := binLoop_pres fuel pnext ops hp e1 st₁ e st' (by rw [hb.1]; exact hwf)
      (by rw [hb.1]; exact hb.2) h
    rw [hb.1] at this
    exact this
  | panic m => rw [hn] at h; exact PRes.noConfusion h
  | fuelOut => rw [hn] at h; exact PRes.noConfusion h

theorem parseExpression_pres : ∀ fuel, Preserves (parseExpression fuel) := by
  intro fuel
  induction fuel with
  | zero =>
    intro st e st' _ _ h
    exact absurd h (by simp [parseExpression])
  | succ f ih =>
    intro st e st' hwf hc h
    rw [parseExpression] at h
    have h1 : Preserves (parseUnaryAux (parseExpression f) f) := parseUnaryAux_pres _ ih f
    have h2 : Preserves (parseFactorAux (parseExpression f) f) := by
      unfold parseFactorAux; exact parseBinLevel_pres _ _ _ h1
    have h3 : Preserves (parseTermAux (parseExpression f) f) := by
      unfold parseTermAux; exact parseBinLevel_pres _ _ _ h2
    have h4 : Preserves (parseComparisonAux (parseExpression f) f) := by
      unfold parseComparisonAux; exact parseBinLevel_pres _ _ _ h3
    have h5 : Preserves (parseEqualityAux (parseExpression f) f) := by
      unfold parseEqualityAux; exact parseBinLevel_pres _ _ _ h4
    exact h5 st e st' hwf hc h

/-- C10: for token sequences whose last element is the only `Eof`,
the parser's cursor can never pass the index of that `Eof`: `advance` is
a no-op once the current token is `Eof`; any successful parse from the
start of such a sequence leaves the token vector unchanged, the cursor
at most at the `Eof` index (so `peek` still returns `Some`); and after
any successful `match_any` the previous-token lookup returns exactly the
token that was peeked and matched (so the `unwrap` on it cannot fail). -/
theorem c10_cursor_invariant :
    (∀ st : PState, st.peek = some Token.eof → st.advance = st) ∧
    (∀ (toks : List Token) (fuel : Nat) (e : Expr) (st' : PState),
      WFToks toks → parseExpression fuel ⟨toks, 0⟩ = .ok e st' →
        st'.tokens = toks ∧ st'.current ≤ toks.length - 1 ∧ st'.peek.isSome = true) ∧
    (∀ (ops : List Token) (st st' : PState), matchAny ops st = (true, st') →
      st'.previous = st.peek ∧ st.peek.isSome = true ∧
        ∃ t ∈ ops, (st.peek.any fun x => x == t) = true) := by
  refine ⟨?_, ?_, fun ops st st' h => matchAny_true_prev h⟩
  · intro st hpk
    unfold PState.advance
    rw [show st.isAtEnd = true from by simp [PState.isAtEnd, hpk, Token.isEof]]
    rfl
  · intro toks fuel e st' hwf h
    have hnil : toks ≠ [] := wf_ne_nil hwf
    have hpres : st'.tokens = toks ∧ st'.current ≤ toks.length - 1 :=
      parseExpression_pres fuel ⟨toks, 0⟩ e st' hwf (by simp) h
    refine ⟨hpres.1, hpres.2, ?_⟩
    have hlt : st'.current < toks.length := by
      have hp := List.length_pos.mpr hnil
      have := hpres.2
      omega
    rw [PState.peek, hpres.1]
    cases hg : toks.get? st'.current with
    | none =>
      have := List.get?_eq_none.mp hg
      omega
    | some t => rfl

/-- C10 witness: the three conjuncts applied at concrete states —
`advance` at an `Eof`-pointing state, a full parse of
`[Number(1), Eof]`, and a successful `match_any` on `[Minus]`. -/
theorem c10_cursor_invariant_witness :
    (⟨[Token.eof], 0⟩ : PState).advance = ⟨[Token.eof], 0⟩ ∧
    ((⟨[Token.number "1", Token.eof], 1⟩ : PState).tokens = [Token.number "1", Token.eof] ∧
      (⟨[Token.number "1", Token.eof], 1⟩ : PState).current ≤
        [Token.number "1", Token.eof].length - 1 ∧
      (⟨[Token.number "1", Token.eof], 1⟩ : PState).peek.isSome = true) ∧
    ((⟨[Token.minus, Token.eof], 1⟩ : PState).previous =
        (⟨[Token.minus, Token.eof], 0⟩ : PState).peek ∧
      (⟨[Token.minus, Token.eof], 0⟩ : PState).peek.isSome = true ∧
      ∃ t ∈ [Token.minus], ((⟨[Token.minus, Token.eof], 0⟩ : PState).peek.any
        fun x => x == t) = true) :=
  ⟨c10_cursor_invariant.1 ⟨[Token.eof], 0⟩ rfl,
   c10_cursor_invariant.2.1 [Token.number "1", Token.eof] 6
     (Expr.literal (Token.number "1")) ⟨[Token.number "1", Token.eof], 1⟩ (by decide) rfl,
   c10_cursor_invariant.2.2 [Token.minus] ⟨[Token.minus, Token.eof], 0⟩
     ⟨[Token.minus, Token.eof], 1⟩ rfl⟩

end Lox
